import Mathlib

/-!
Verification of the generic red-black tree implementation in `src/RBTree.c`
(with client helpers in `src/Structs.c`).

Embedding notes.  The C code manipulates heap nodes with `parent`, `left`,
`right`, `data` and `color` fields.  We model the node graph as an inductive
binary tree (`Tree`); a `NULL` node pointer is `Tree.nil`.  The parent
back-pointers, which the C code uses to walk and rotate upwards, are modelled
by an explicit context (`Frame` list): a list of ancestors from the focused
node up to the root, each frame recording on which side the focus hangs, the
ancestor's color and payload, and the ancestor's other subtree.  `plug`
rebuilds the full tree from a context and a focused subtree; it corresponds
to following the parent chain back to `tree->root`.  In-place pointer and
color mutation becomes functional reconstruction.  Payloads (`void *data`)
are modelled as `Int`; the caller-supplied comparator `compFunc` is an
explicit `comp : Int → Int → Int` argument, and calls to the caller-supplied
destructor `freeFunc` are recorded as a trace (`List Int`) of destructed
payloads.  Node storage allocation (`malloc`/`free` of the `Node` struct
itself) is not a destructor call and is not traced; `malloc` is assumed to
succeed.  The order of fields in `Tree.node` is `left, color, data, right`.
-/

namespace RBT

/-- Status constants from `RBTree.c`. -/
def FAILURE : Int := 0

/-- SUCCESS return value from `RBTree.c`. -/
def SUCCESS : Int := 1

/-- Side constant `LEFT` from `RBTree.c`. -/
def LEFT : Int := -1

/-- Comparator result constant `EQUAL` from `RBTree.c`. -/
def EQUAL : Int := 0

/-- Side constant `RIGHT` from `RBTree.c`. -/
def RIGHT : Int := 1

/-- Node colors, from the `Color` enum used by `RBTree.c`. -/
inductive Color where
  | RED : Color
  | BLACK : Color
deriving DecidableEq, Repr

/-- The node graph reachable from a (possibly NULL) node pointer: `nil` is the
NULL pointer, `node l c d r` is a heap node with left child `l`, color `c`,
payload `d` and right child `r`.  Parent pointers are represented by the
`Frame` contexts below. -/
inductive Tree where
  | nil : Tree
  | node (left : Tree) (color : Color) (data : Int) (right : Tree) : Tree
deriving DecidableEq, Repr

/-- A context frame: one ancestor on the parent chain of a focused node.
`side` is the side (LEFT/RIGHT, as in `getSide`) on which the focus hangs
below this ancestor, `color`/`data` are the ancestor's fields, and `other` is
the ancestor's other child subtree. -/
structure Frame where
  side : Int
  color : Color
  data : Int
  other : Tree
deriving DecidableEq, Repr

/-- Rebuild the parent node from a frame and the focused child subtree
(the inverse of descending one step). -/
def plugF (f : Frame) (t : Tree) : Tree :=
  if f.side = LEFT then Tree.node t f.color f.data f.other
  else Tree.node f.other f.color f.data t

/-- Rebuild the whole tree from a context (innermost ancestor first) and the
focused subtree: this models following the parent chain up to `tree->root`. -/
def plug : List Frame → Tree → Tree
  | [], t => t
  | f :: fs, t => plug fs (plugF f t)

/-- Color of a node pointer, where NULL reads as BLACK only through `isRed`;
`setColor t c` models `t->color = c` (no-op on NULL, which the C code never
does on a live path). -/
def setColor : Tree → Color → Tree
  | Tree.nil, _ => Tree.nil
  | Tree.node l _ d r, c => Tree.node l c d r

/-- The C idiom `x != NULL && x->color == RED`; its negation is the C idiom
`x == NULL || x->color == BLACK`. -/
def isRed : Tree → Bool
  | Tree.node _ Color.RED _ _ => true
  | _ => false

/-- Payload of a non-NULL node (`x->data`); 0 for NULL (never used there). -/
def rootData : Tree → Int
  | Tree.nil => 0
  | Tree.node _ _ d _ => d

/-- Embedding of `rotate` (RBTree.c lines 127-158) acting on the subtree
rooted at `parent`: `childSide` is `getSide(child)` and the returned tree is
the rotated subtree whose root is the promoted child.  The grandparent /
tree-root re-linking done by lines 130-147 of the C code is plugging the
result back at the same context position (`plug`), since the context frame
records the parent's former side. -/
def rotate : Int → Tree → Tree
  | childSide, Tree.node l c d r =>
    if childSide = LEFT then
      match l with
      | Tree.node ll lc ld lr => Tree.node ll lc ld (Tree.node lr c d r)
      | Tree.nil => Tree.node l c d r
    else
      match r with
      | Tree.node rl rc rd rr => Tree.node (Tree.node l c d rl) rc rd rr
      | Tree.nil => Tree.node l c d r
  | _, Tree.nil => Tree.nil

/-- The tree header struct `RBTree`: root pointer and item count.  The
`compFunc` field is modelled as the explicit `comp` argument of each
operation and `freeFunc` as the destructor trace in return values. -/
structure RBTree where
  root : Tree
  size : Nat
deriving DecidableEq, Repr

/-- Embedding of `newRBTree` (allocation assumed to succeed). -/
def newRBTree : RBTree := { root := Tree.nil, size := 0 }

/-- Embedding of the descent loop of `insertNode` (RBTree.c lines 228-256).
It walks down from `curNode` comparing with `compFunc`: on EQUAL the new node
is freed (node storage only, not the payload) and the insert fails (`none`);
otherwise it descends left on `compRes < EQUAL`, right otherwise, recording
the parent chain as context frames.  `some ctx` is the leaf position at which
`connectNode` attaches the new node. -/
def insertDescend (comp : Int → Int → Int) (e : Int) : Tree → List Frame → Option (List Frame)
  | Tree.nil, ctx => some ctx
  | Tree.node l c d r, ctx =>
    let compRes := comp e d
    if compRes = EQUAL then none
    else if compRes < EQUAL then
      insertDescend comp e l ({ side := LEFT, color := c, data := d, other := r } :: ctx)
    else
      insertDescend comp e r ({ side := RIGHT, color := c, data := d, other := l } :: ctx)

/-- Embedding of `insertNode`: returns the context of the attachment position
on success, `none` when a comparator-equal node is found. -/
def insertNode (comp : Int → Int → Int) (root : Tree) (e : Int) : Option (List Frame) :=
  insertDescend comp e root []

/-- Embedding of `updateColorBlackUncle` (RBTree.c lines 169-184): the black
uncle case of the insert fix-up.  `f` is the (red) parent frame, `g` the
grandparent frame (so `g.other` is the uncle and `g.side` is `parentSide`),
`focus` the violating node subtree.  On a zig-zag (`childSide != parentSide`)
the node is first rotated above its parent and then treated as the parent.
Then the parent is rotated above the grandparent, the parent is colored BLACK
and the grandparent RED.  The function's C return value is the color the
caller stores into the node; since the node's color is never read in between,
we apply it directly (`setColor`). -/
def updateColorBlackUncle (rest : List Frame) (g f : Frame) (focus : Tree) : Tree :=
  if f.side = g.side then
    plug rest (rotate g.side (plugF (Frame.mk g.side Color.RED g.data g.other)
      (plugF (Frame.mk f.side Color.BLACK f.data f.other) (setColor focus Color.RED))))
  else
    plug rest (rotate g.side (plugF (Frame.mk g.side Color.RED g.data g.other)
      (setColor (rotate f.side (plugF f focus)) Color.BLACK)))

/-- Embedding of `updateColors` (RBTree.c lines 191-220), fused with the color
assignment its callers perform with the return value (the node's color is
never read before that assignment, so fusing is sound).  Cases: no parent →
BLACK; black parent → RED; red parent with black/NULL uncle →
`updateColorBlackUncle`; red parent with red uncle → recolor parent and uncle
BLACK and recurse one level up on the grandparent (whose color is set to the
recursive result).  A red parent without grandparent makes the C code
dereference NULL; that case is unreachable from valid trees and is modelled
as a plain RED recolor. -/
def updateColors (ctx : List Frame) (focus : Tree) : Tree :=
  match ctx with
  | [] => setColor focus Color.BLACK
  | f :: rest =>
    if f.color = Color.BLACK then plug rest (plugF f (setColor focus Color.RED))
    else
      match rest with
      | [] => plugF f (setColor focus Color.RED)
      | g :: rest' =>
        if isRed g.other = false then
          updateColorBlackUncle rest' g f focus
        else
          updateColors rest' (plugF (Frame.mk g.side g.color g.data (setColor g.other Color.BLACK))
            (plugF (Frame.mk f.side Color.BLACK f.data f.other) (setColor focus Color.RED)))

/-- Embedding of `insertToRBTree` (RBTree.c lines 264-293).  NULL-argument
checks live in the `api` wrapper below.  The new node is created BLACK; an
empty tree adopts it as root directly; otherwise `insertNode` places it (or
fails on a duplicate) and `updateColors` runs the fix-up and assigns the
node's final color.  The third component is the destructor-call trace: the
insert path never invokes `freeFunc` (a duplicate only `free`s the node
storage), so it is always empty. -/
def insertToRBTree (comp : Int → Int → Int) (t : RBTree) (e : Int) : Int × RBTree × List Int :=
  let newNode := Tree.node Tree.nil Color.BLACK e Tree.nil
  if t.root = Tree.nil then (SUCCESS, { root := newNode, size := t.size + 1 }, [])
  else
    match insertNode comp t.root e with
    | none => (FAILURE, t, [])
    | some ctx => (SUCCESS, { root := updateColors ctx newNode, size := t.size + 1 }, [])

/-- Embedding of the search loop of `findNode` (RBTree.c lines 301-322),
additionally recording the parent chain of the match as context frames (in C
the same information is carried by the parent pointers).  Returns the context
and the matching subtree, or `none` when no node compares EQUAL. -/
def findNodeCtx (comp : Int → Int → Int) (e : Int) :
    Tree → List Frame → Option (List Frame × Tree)
  | Tree.nil, _ => none
  | Tree.node l c d r, ctx =>
    let compRes := comp e d
    if compRes = EQUAL then some (ctx, Tree.node l c d r)
    else if compRes < EQUAL then
      findNodeCtx comp e l (Frame.mk LEFT c d r :: ctx)
    else
      findNodeCtx comp e r (Frame.mk RIGHT c d l :: ctx)

/-- Embedding of `getSingleChild` (RBTree.c lines 367-378): the one child of a
node when exactly one of its children is NULL, otherwise `none`. -/
def getSingleChild : Tree → Option Tree
  | Tree.nil => none
  | Tree.node l _ _ r =>
    if l = Tree.nil ∧ r ≠ Tree.nil then some r
    else if l ≠ Tree.nil ∧ r = Tree.nil then some l
    else none

/-- Embedding of the `findSuccessor` loop (RBTree.c lines 329-344) descending
to the leftmost node, recording the traversed spine as context frames
relative to the starting subtree. -/
def findSuccessorCtx : Tree → List Frame → List Frame × Tree
  | Tree.nil, acc => (acc, Tree.nil)
  | Tree.node l c d r, acc =>
    if l = Tree.nil then (acc, Tree.node l c d r)
    else findSuccessorCtx l (Frame.mk LEFT c d r :: acc)

/-- Embedding of `placeBeforeDeletion` (RBTree.c lines 560-577) together with
the `switchNodes` swaps it performs.  `switchNodes` exchanges the tree
positions and colors of two nodes while each node keeps its payload.  Given
the context and subtree of the node to delete, this returns the context and
subtree of the same node (same payload) after the pre-deletion placement:
 * exactly one child: the node is swapped with that child and ends up below
   it (`switchNodes(tree, toSwitch, *childPtr)`);
 * two children: the node is swapped with its in-order successor, the
   leftmost node of its right subtree (`switchNodes(tree, toSwitch, suc)`);
   the C special case for an adjacent successor produces the same
   configuration and is covered by the same formula;
 * otherwise (a leaf): no change.
The NULL-argument failure branch is handled at the call site in
`deleteFromRBTree` (a failed `findNode`). -/
def placeBeforeDeletion (ctx : List Frame) (focus : Tree) : List Frame × Tree :=
  match focus with
  | Tree.nil => (ctx, focus)
  | Tree.node l c d r =>
    match getSingleChild (Tree.node l c d r) with
    | some (Tree.node cl cc _dc cr) =>
      if l = Tree.nil then
        (Frame.mk RIGHT c _dc Tree.nil :: ctx, Tree.node cl cc d cr)
      else
        (Frame.mk LEFT c _dc Tree.nil :: ctx, Tree.node cl cc d cr)
    | some Tree.nil => (ctx, focus)
    | none =>
      if r ≠ Tree.nil ∧ l ≠ Tree.nil then
        match findSuccessorCtx r [] with
        | (ext, Tree.node _ cs ds sr) =>
          (ext ++ Frame.mk RIGHT c ds l :: ctx, Tree.node Tree.nil cs d sr)
        | (_, Tree.nil) => (ctx, focus)
      else (ctx, focus)

/-- Embedding of `closeRedNephewDB` (RBTree.c lines 453-467): when the close
nephew (the sibling's child on the deficiency side) is RED, recolor it BLACK,
recolor the sibling RED, and rotate the close nephew above the sibling.
Operates on (and returns) the sibling subtree. -/
def closeRedNephewDB (sib : Tree) (childSide : Int) : Tree :=
  match sib with
  | Tree.nil => sib
  | Tree.node sl _ sd sr =>
    if childSide = LEFT ∧ isRed sl = true then
      rotate LEFT (Tree.node (setColor sl Color.BLACK) Color.RED sd sr)
    else if childSide = RIGHT ∧ isRed sr = true then
      rotate RIGHT (Tree.node sl Color.RED sd (setColor sr Color.BLACK))
    else sib

/-- Embedding of `farRedNephewDB` (RBTree.c lines 476-494): when the far
nephew is RED, swap the parent's and sibling's colors, recolor the sibling's
red child BLACK (preferring the right child, as the C code does), and rotate
the sibling above the parent.  `f` is the parent frame; the result is the
subtree standing at the parent's former position.  When the guard fails the
parent node is rebuilt unchanged. -/
def farRedNephewDB (f : Frame) (sib : Tree) (focus : Tree) (childSide : Int) : Tree :=
  match sib with
  | Tree.nil => plugF (Frame.mk f.side f.color f.data sib) focus
  | Tree.node sl sc sd sr =>
    if (childSide = LEFT ∧ isRed sr = true) ∨ (childSide = RIGHT ∧ isRed sl = true) then
      let sl' := if isRed sr = true then sl else setColor sl Color.BLACK
      let sr' := if isRed sr = true then setColor sr Color.BLACK else sr
      if childSide = LEFT then rotate RIGHT (Tree.node focus sc f.data (Tree.node sl' f.color sd sr'))
      else rotate LEFT (Tree.node (Tree.node sl' f.color sd sr') sc f.data focus)
    else plugF (Frame.mk f.side f.color f.data (Tree.node sl sc sd sr)) focus

/-- The common tail of `blackSiblingDB` (RBTree.c lines 522-524): run
`closeRedNephewDB` on the sibling, recompute the sibling (in C this re-reads
the parent's child slot, which after the close-nephew rotation holds exactly
the rotation result, and the write-back `*siblingP = ...` stores that same
value, so it is the identity here), then run `farRedNephewDB` and return the
whole tree. -/
def closeFar (rest : List Frame) (f : Frame) (sib : Tree) (focus : Tree) : Tree :=
  plug rest (farRedNephewDB f (closeRedNephewDB sib f.side) focus f.side)

/-- Weight of a frame for the termination measure of `solveDB`. -/
def tsize : Tree → Nat
  | Tree.nil => 0
  | Tree.node l _ _ r => tsize l + tsize r + 1

/-- Termination measure for `solveDB` and `blackSiblingDB`: the red-sibling
retry pushes the two sibling children as new frames (strict decrease with
base 3 weights) while the double-black propagation drops a frame. -/
def ctxMeasure : List Frame → Nat
  | [] => 0
  | f :: fs => 3 ^ tsize f.other + ctxMeasure fs

theorem three_pow_add_lt (a b : Nat) : 3 ^ a + 3 ^ b < 3 ^ (a + b + 1) := by
  have ha : 1 ≤ 3 ^ a := Nat.one_le_pow _ _ (by norm_num)
  have hb : 1 ≤ 3 ^ b := Nat.one_le_pow _ _ (by norm_num)
  have h3 : 3 ^ (a + b + 1) = 3 * (3 ^ a * 3 ^ b) := by ring
  have h4 : 3 ^ a + 3 ^ b ≤ 3 ^ a * 3 ^ b + 3 ^ a * 3 ^ b := by
    have := Nat.mul_le_mul_left (3 ^ a) hb
    have := Nat.mul_le_mul_right (3 ^ b) ha
    omega
  omega

mutual

/-- Embedding of `solveDB` (RBTree.c lines 534-551), the recursive
double-black resolver.  `ctx` is the parent chain of the deficient position
(`*parentP = NULL` is `ctx = []`) and `focus` the (possibly NULL) subtree at
that position.  The sibling is read from the first frame.  A RED sibling is
recolored BLACK, the parent RED, the sibling rotated above the parent, and
resolution retried at the same position (the new frames record the parent,
now RED with the sibling's inner child as the focus sibling, below the old
sibling, now BLACK).  A NULL sibling makes the C code dereference NULL
(unreachable from valid trees); it is modelled as rebuilding unchanged. -/
def solveDB (ctx : List Frame) (focus : Tree) : Tree :=
  match ctx with
  | [] => focus
  | f :: rest =>
    match hs : f.other with
    | Tree.nil => plug rest (plugF f focus)
    | Tree.node sl sc sd sr =>
      if sc = Color.RED then
        solveDB (Frame.mk f.side Color.RED f.data (if f.side = LEFT then sl else sr) ::
          Frame.mk f.side Color.BLACK sd (if f.side = LEFT then sr else sl) :: rest) focus
      else blackSiblingDB rest f (Tree.node sl sc sd sr) focus
termination_by 2 * ctxMeasure ctx + 1
decreasing_by
  · have h1 := three_pow_add_lt (tsize sl) (tsize sr)
    have h2 := three_pow_add_lt (tsize sr) (tsize sl)
    simp only [ctxMeasure, tsize, hs]
    split <;> omega
  · simp only [ctxMeasure, hs]
    omega

/-- Embedding of `blackSiblingDB` (RBTree.c lines 504-525): the black-sibling
cases of double-black resolution.  When both nephews are BLACK/NULL the
sibling is recolored RED; a RED parent is then recolored BLACK and the C code
falls through to the (then inert) close/far nephew steps, while a BLACK
parent propagates the deficiency upward by recursing into `solveDB` one level
up.  Otherwise the close/far nephew steps run. -/
def blackSiblingDB (rest : List Frame) (f : Frame) (sib : Tree) (focus : Tree) : Tree :=
  match sib with
  | Tree.nil => plug rest (plugF f focus)
  | Tree.node sl sc sd sr =>
    if isRed sl = false ∧ isRed sr = false then
      if f.color = Color.RED then
        closeFar rest (Frame.mk f.side Color.BLACK f.data f.other) (Tree.node sl Color.RED sd sr)
          focus
      else
        solveDB rest (plugF (Frame.mk f.side f.color f.data (Tree.node sl Color.RED sd sr)) focus)
    else closeFar rest f (Tree.node sl sc sd sr) focus
termination_by 2 * ctxMeasure (f :: rest)
decreasing_by
  simp only [ctxMeasure]
  have : 1 ≤ 3 ^ tsize f.other := Nat.one_le_pow _ _ (by norm_num)
  omega

end

/-- Embedding of `balanceTree` (RBTree.c lines 587-606): disconnects the node
being deleted and rebalances.  A RED node is simply unlinked; a BLACK node is
replaced by its single child (or NULL), with a RED child recolored BLACK and
otherwise `solveDB` resolving the double black. -/
def balanceTree (ctx : List Frame) (focus : Tree) : Tree :=
  match focus with
  | Tree.nil => plug ctx Tree.nil
  | Tree.node l c d r =>
    if c = Color.RED then plug ctx Tree.nil
    else
      match getSingleChild (Tree.node l c d r) with
      | some ch => if isRed ch = true then plug ctx (setColor ch Color.BLACK) else solveDB ctx ch
      | none => solveDB ctx Tree.nil

/-- Embedding of `freeNode` (RBTree.c lines 351-361): the post-order list of
payloads passed to the destructor `freeFunc`. -/
def freeNode : Tree → List Int
  | Tree.nil => []
  | Tree.node l _ d r => freeNode l ++ freeNode r ++ [d]

/-- Embedding of `deleteFromRBTree` (RBTree.c lines 614-633).  The NULL-tree
check lives in the `api` wrapper.  A failed `findNode` makes
`placeBeforeDeletion` fail and the delete return FAILURE with the tree
untouched.  Otherwise the node is placed (`placeBeforeDeletion`), unlinked
and rebalanced (`balanceTree`), its children pointers are nulled, and
`freeNode` destructs exactly its own payload; the size is decremented. -/
def deleteFromRBTree (comp : Int → Int → Int) (t : RBTree) (e : Int) : Int × RBTree × List Int :=
  match findNodeCtx comp e t.root [] with
  | none => (FAILURE, t, [])
  | some (ctx, focus) =>
    let pl := placeBeforeDeletion ctx focus
    let newRoot := balanceTree pl.1 pl.2
    (SUCCESS, { root := newRoot, size := t.size - 1 },
      freeNode (Tree.node Tree.nil Color.BLACK (rootData focus) Tree.nil))

/-- Embedding of `RBTreeContains` (RBTree.c lines 642-649) for a non-NULL
tree; the NULL-tree check lives in the `api` wrapper. -/
def RBTreeContains (comp : Int → Int → Int) (t : RBTree) (e : Int) : Int :=
  if (findNodeCtx comp e t.root []).isSome then 1 else 0

/-- Embedding of `forEachNode` (RBTree.c lines 659-678).  The callback's
mutation of `args` (a `void *` context) is modelled by threading a state of
type `σ`: `func d s` returns the C return value and the updated context. -/
def forEachNode {σ : Type} (t : Tree) (func : Int → σ → Int × σ) (args : σ) : Int × σ :=
  match t with
  | Tree.nil => (SUCCESS, args)
  | Tree.node l _ d r =>
    let resL := forEachNode l func args
    if resL.1 = FAILURE then (FAILURE, resL.2)
    else
      let resF := func d resL.2
      if resF.1 = FAILURE then (FAILURE, resF.2)
      else forEachNode r func resF.2

/-- Embedding of `forEachRBTree` (RBTree.c lines 688-699) for a non-NULL
tree; the NULL-tree check lives in the `api` wrapper. -/
def forEachRBTree {σ : Type} (t : RBTree) (func : Int → σ → Int × σ) (args : σ) : Int × σ :=
  if t.root = Tree.nil then (SUCCESS, args) else forEachNode t.root func args

/-- API-level `insertToRBTree` with the NULL checks of RBTree.c lines
266-273: a NULL tree or NULL payload (modelled by `Option`) returns FAILURE
before anything is touched. -/
def apiInsert (comp : Int → Int → Int) :
    Option RBTree → Option Int → Int × Option RBTree × List Int
  | none, _ => (FAILURE, none, [])
  | some t, none => (FAILURE, some t, [])
  | some t, some e =>
    let r := insertToRBTree comp t e
    (r.1, some r.2.1, r.2.2)

/-- API-level `deleteFromRBTree` (RBTree.c lines 614-633).  Only the tree is
NULL-checked; a NULL payload is passed straight into `findNode`, which hands
it to the caller's comparator — undefined behavior whenever the tree is
non-empty (modelled by the outer `none`); on an empty tree the search loop
never runs and the delete fails cleanly. -/
def apiDelete (comp : Int → Int → Int) :
    Option RBTree → Option Int → Option (Int × Option RBTree × List Int)
  | none, _ => some (FAILURE, none, [])
  | some t, some e =>
    let r := deleteFromRBTree comp t e
    some (r.1, some r.2.1, r.2.2)
  | some t, none => if t.root = Tree.nil then some (FAILURE, some t, []) else none

/-- API-level `RBTreeContains` (RBTree.c lines 642-649).  Only the tree is
NULL-checked; a NULL payload reaches the comparator on a non-empty tree
(undefined behavior, the outer `none`). -/
def apiContains (comp : Int → Int → Int) : Option RBTree → Option Int → Option Int
  | none, _ => some FAILURE
  | some t, some e => some (RBTreeContains comp t e)
  | some t, none => if t.root = Tree.nil then some 0 else none

/-- API-level `forEachRBTree` with its NULL-tree check (RBTree.c lines
690-693). -/
def apiForEach {σ : Type} : Option RBTree → (Int → σ → Int × σ) → σ → Int × σ
  | none, _, args => (FAILURE, args)
  | some t, func, args => forEachRBTree t func args

/-- In-order payload sequence of a subtree. -/
def inorder : Tree → List Int
  | Tree.nil => []
  | Tree.node l _ d r => inorder l ++ d :: inorder r

/-- Conjunction of a boolean predicate over all payloads of a subtree. -/
def allTree (p : Int → Bool) : Tree → Bool
  | Tree.nil => true
  | Tree.node l _ d r => p d && allTree p l && allTree p r

/-- Red-black invariant 4 checker: `some n` is the uniform black count from
the root of `t` to every descendant NULL position (counting `t`'s own color),
`none` if some two paths disagree. -/
def bhv : Tree → Option Nat
  | Tree.nil => some 0
  | Tree.node l c _ r =>
    match bhv l, bhv r with
    | some a, some b =>
      if a = b then some (a + (if c = Color.BLACK then 1 else 0)) else none
    | _, _ => none

/-- Red-black invariant 3 checker: no RED node has a RED child. -/
def noRedRed : Tree → Bool
  | Tree.nil => true
  | Tree.node l c _ r =>
    (if c = Color.RED then !isRed l && !isRed r else true) && noRedRed l && noRedRed r

/-- Red-black invariant 5 checker: binary-search-tree order under the
comparator's strict order. -/
def ordered (comp : Int → Int → Int) : Tree → Bool
  | Tree.nil => true
  | Tree.node l _ d r =>
    allTree (fun x => decide (comp x d < 0)) l && allTree (fun x => decide (comp x d > 0)) r &&
      ordered comp l && ordered comp r

/-- All five red-black invariants of the spec (invariant 1 holds by typing):
root BLACK if present, no red-red violation, uniform black counts, and BST
order under the comparator. -/
def rbValid (comp : Int → Int → Int) (t : Tree) : Bool :=
  !isRed t && noRedRed t && (bhv t).isSome && ordered comp t

/-- A public mutation of the interface: insert or delete of a payload. -/
inductive Op where
  | ins (x : Int) : Op
  | del (x : Int) : Op
deriving DecidableEq, Repr

/-- Run a sequence of public mutations left to right, threading the tree and
accumulating the destructor-call trace. -/
def runOps (comp : Int → Int → Int) : List Op → RBTree × List Int → RBTree × List Int
  | [], st => st
  | Op.ins x :: ops, st =>
    let r := insertToRBTree comp st.1 x
    runOps comp ops (r.2.1, st.2 ++ r.2.2)
  | Op.del x :: ops, st =>
    let r := deleteFromRBTree comp st.1 x
    runOps comp ops (r.2.1, st.2 ++ r.2.2)

/-- The comparator used for concrete test instances: the standard total order
on `Int` payloads, in the contract of §6 of the spec. -/
def intComp (a b : Int) : Int := if a < b then -1 else if b < a then 1 else 0

/-- Strict-weak-order axioms for a caller-supplied comparator, per the §6
contract (total order, consistent signs): antisymmetric flip and
transitivity, including through comparator-equal elements. -/
structure IsStrictCmp (comp : Int → Int → Int) : Prop where
  flip : ∀ a b, comp a b < 0 ↔ comp b a > 0
  lt_trans : ∀ a b c, comp a b < 0 → comp b c < 0 → comp a c < 0
  eq_lt_trans : ∀ a b c, comp a b = 0 → comp b c < 0 → comp a c < 0
  lt_eq_trans : ∀ a b c, comp a b < 0 → comp b c = 0 → comp a c < 0

/-- Specification-side early-stop in-order fold (for the refinement claim on
`forEach`): apply the callback to the payload list left to right, stopping
with FAILURE as soon as one invocation returns FAILURE, SUCCESS otherwise. -/
def forEachSpec {σ : Type} : List Int → (Int → σ → Int × σ) → σ → Int × σ
  | [], _, s => (SUCCESS, s)
  | x :: xs, f, s =>
    let r := f x s
    if r.1 = FAILURE then (FAILURE, r.2) else forEachSpec xs f r.2

/-- Payloads sitting strictly to the left of the context hole, in order. -/
def ctxL : List Frame → List Int
  | [] => []
  | f :: fs => if f.side = LEFT then ctxL fs else ctxL fs ++ inorder f.other ++ [f.data]

/-- Payloads sitting strictly to the right of the context hole, in order. -/
def ctxR : List Frame → List Int
  | [] => []
  | f :: fs => if f.side = LEFT then f.data :: inorder f.other ++ ctxR fs else ctxR fs

/-- Root color of a node pointer, NULL reading as BLACK. -/
def tColor : Tree → Color
  | Tree.nil => Color.BLACK
  | Tree.node _ c _ _ => c

/-- Black-height compatibility of a context with a hole of black count `n`:
each frame's other subtree balances against the hole side. -/
def ctxFitsB : List Frame → Nat → Bool
  | [], _ => true
  | f :: fs, n =>
    decide (bhv f.other = some n) &&
      ctxFitsB fs (n + (if f.color = Color.BLACK then 1 else 0))

/-- Red-red freedom of a context around a hole whose subtree root has color
`hc`: each red frame has a black hole-side child and a black other child, and
the frames chain correctly. -/
def noRRctxB : List Frame → Color → Bool
  | [], _ => true
  | f :: fs, hc =>
    (if f.color = Color.RED then decide (hc = Color.BLACK) && !isRed f.other else true) &&
      noRedRed f.other && noRRctxB fs f.color

/-- Color of the root of `plug ctx t` as a function of the context. -/
def lastColor : List Frame → Color → Color
  | [], c => c
  | f :: fs, _ => lastColor fs f.color

/-- Ordering constraint a context places on any payload standing in its hole:
strictly below every LEFT-side ancestor's payload and strictly above every
RIGHT-side ancestor's payload. -/
def holeOKB (comp : Int → Int → Int) (ctx : List Frame) (x : Int) : Bool :=
  ctx.all fun f =>
    if f.side = LEFT then decide (comp x f.data < 0) else decide (comp x f.data > 0)

/-- Internal ordering of one frame: the other subtree is ordered and on the
correct side of the frame's payload. -/
def frameOKB (comp : Int → Int → Int) (f : Frame) : Bool :=
  (if f.side = LEFT then allTree (fun x => decide (comp x f.data > 0)) f.other
   else allTree (fun x => decide (comp x f.data < 0)) f.other) && ordered comp f.other

/-- Mutual ordering of a whole context: each frame is internally ordered and
its payload and other subtree satisfy the constraints of the outer frames. -/
def ctxOrderedB (comp : Int → Int → Int) : List Frame → Bool
  | [] => true
  | f :: fs =>
    frameOKB comp f && holeOKB comp fs f.data && allTree (holeOKB comp fs) f.other &&
      ctxOrderedB comp fs

/-- Specification-side sorted insertion into a list, for stating that insert
places the new payload at its comparator position. -/
def orderedInsert (comp : Int → Int → Int) (e : Int) : List Int → List Int
  | [] => [e]
  | x :: xs => if comp e x < 0 then e :: x :: xs else x :: orderedInsert comp e xs

/-- Does the tree contain a node with payload `e` of color `col`
(position-independent containment)? -/
def memColor : Tree → Int → Color → Bool
  | Tree.nil, _, _ => false
  | Tree.node l c d r, e, col =>
    (decide (d = e) && decide (c = col)) || memColor l e col || memColor r e col

/-- The insert fix-up placement shape under which `updateColorBlackUncle`
promotes the new node itself (red parent, black-or-NULL uncle, node and
parent on opposite sides): exactly then the new node ends up BLACK. -/
def zigzagCase : List Frame → Bool
  | f :: g :: _ =>
    decide (f.color = Color.RED) && !isRed g.other && decide (¬f.side = g.side)
  | _ => false

/-- Total black weight a context adds on the path from the hole to the
root. -/
def ctxW : List Frame → Nat
  | [] => 0
  | f :: fs => (if f.color = Color.BLACK then 1 else 0) + ctxW fs

/-- All frame sides of a context are the literal LEFT or RIGHT constants (as
produced by `getSide` in the C code). -/
def sidesOKB (ctx : List Frame) : Bool :=
  ctx.all fun f => decide (f.side = LEFT) || decide (f.side = RIGHT)

theorem intComp_strict : IsStrictCmp intComp := by
  refine ⟨?_, ?_, ?_, ?_⟩ <;> intros <;> simp only [intComp] at * <;> split_ifs at * <;> omega

theorem inorder_plugF (f : Frame) (t : Tree) :
    inorder (plugF f t) =
      (if f.side = LEFT then inorder t ++ f.data :: inorder f.other
       else inorder f.other ++ f.data :: inorder t) := by
  by_cases h : f.side = LEFT <;> simp [plugF, inorder, h]

theorem inorder_plug (ctx : List Frame) (t : Tree) :
    inorder (plug ctx t) = ctxL ctx ++ inorder t ++ ctxR ctx := by
  induction ctx generalizing t with
  | nil => simp [plug, ctxL, ctxR]
  | cons f fs ih =>
    by_cases h : f.side = LEFT <;>
      simp [plug, ctxL, ctxR, h, ih, inorder_plugF, inorder]

theorem plug_append (a b : List Frame) (t : Tree) :
    plug (a ++ b) t = plug b (plug a t) := by
  induction a generalizing t with
  | nil => simp [plug]
  | cons f fs ih => simp [plug, ih]

theorem inorder_setColor (t : Tree) (c : Color) : inorder (setColor t c) = inorder t := by
  cases t <;> simp [setColor, inorder]

theorem inorder_rotate (s : Int) (t : Tree) : inorder (rotate s t) = inorder t := by
  cases t with
  | nil => simp [rotate]
  | node l c d r =>
    by_cases h : s = LEFT
    · cases l <;> simp [rotate, h, inorder]
    · cases r <;> simp [rotate, h, inorder]

theorem forEachSpec_append {σ : Type} (xs ys : List Int) (f : Int → σ → Int × σ) (s : σ) :
    forEachSpec (xs ++ ys) f s =
      (if (forEachSpec xs f s).1 = FAILURE then forEachSpec xs f s
       else forEachSpec ys f (forEachSpec xs f s).2) := by
  induction xs generalizing s with
  | nil => norm_num [forEachSpec, SUCCESS, FAILURE]
  | cons x xs ih =>
    simp only [List.cons_append, forEachSpec]
    split
    · simp [FAILURE]
    · exact ih _

theorem forEachNode_eq_spec {σ : Type} (t : Tree) (func : Int → σ → Int × σ) (args : σ) :
    forEachNode t func args = forEachSpec (inorder t) func args := by
  induction t generalizing args with
  | nil => simp [forEachNode, inorder, forEachSpec]
  | node l c d r ihl ihr =>
    simp only [forEachNode, inorder, ihl, ihr, forEachSpec_append]
    rcases h : forEachSpec (inorder l) func args with ⟨rv, rs⟩
    by_cases hrv : rv = FAILURE
    · simp [hrv, forEachSpec]
    · simp only [hrv, if_false, forEachSpec]

/-- Claim C6: for every tree, callback and context, `forEachRBTree` behaves
exactly like the early-stop in-order fold over the tree's in-order payload
sequence: payloads are visited left subtree, node, right subtree; the
traversal stops with FAILURE at the first failing callback, skipping the
rest; it reports SUCCESS on an empty tree or when every callback succeeds. -/
theorem forEachRBTree_eq_forEachSpec {σ : Type} (t : RBTree) (func : Int → σ → Int × σ)
    (args : σ) : forEachRBTree t func args = forEachSpec (inorder t.root) func args := by
  rcases t with ⟨root, size⟩
  cases root <;>
    simp [forEachRBTree, forEachNode_eq_spec, inorder, forEachSpec]

/-- Claim C9: rotating a direct child above its parent preserves the in-order
payload sequence of the whole tree (the context `ctx` is the ancestor chain,
so the plug models the re-link to the grandparent or the tree root) and the
promoted child's payload and color stand at the parent's former position. -/
theorem rotate_inorder_and_promote (ctx : List Frame) (child pl pr : Tree) (pc : Color)
    (pd : Int) (s : Int)
    (hchild : (s = LEFT ∧ pl = child) ∨ (s ≠ LEFT ∧ pr = child))
    (hne : child ≠ Tree.nil) :
    inorder (plug ctx (rotate s (Tree.node pl pc pd pr))) =
        inorder (plug ctx (Tree.node pl pc pd pr)) ∧
      rootData (rotate s (Tree.node pl pc pd pr)) = rootData child ∧
      tColor (rotate s (Tree.node pl pc pd pr)) = tColor child := by
  constructor
  · rw [inorder_plug, inorder_plug, inorder_rotate]
  · rcases hchild with ⟨hs, hc⟩ | ⟨hs, hc⟩
    · subst hc
      cases pl with
      | nil => exact absurd rfl hne
      | node ll lc ld lr => simp [rotate, hs, rootData, tColor]
    · subst hc
      cases pr with
      | nil => exact absurd rfl hne
      | node rl rc rd rr => simp [rotate, hs, rootData, tColor]

theorem allTree_iff_mem (p : Int → Bool) (t : Tree) :
    allTree p t = true ↔ ∀ x ∈ inorder t, p x = true := by
  induction t with
  | nil => simp [allTree, inorder]
  | node l c d r ihl ihr =>
    simp only [allTree, inorder, Bool.and_eq_true, ihl, ihr, List.mem_append, List.mem_cons]
    constructor
    · rintro ⟨⟨hd, hl⟩, hr⟩ x (hx | hx | hx)
      · exact hl x hx
      · exact hx ▸ hd
      · exact hr x hx
    · intro h
      exact ⟨⟨h d (Or.inr (Or.inl rfl)), fun x hx => h x (Or.inl hx)⟩,
        fun x hx => h x (Or.inr (Or.inr hx))⟩

theorem allTree_and (p q : Int → Bool) (t : Tree) :
    allTree (fun x => p x && q x) t = (allTree p t && allTree q t) := by
  induction t with
  | nil => simp [allTree]
  | node l c d r ihl ihr =>
    simp only [allTree, ihl, ihr]
    cases p d <;> cases q d <;> cases allTree p l <;> cases allTree q l <;>
      cases allTree p r <;> cases allTree q r <;> rfl

theorem allTree_plugF (p : Int → Bool) (f : Frame) (t : Tree) :
    allTree p (plugF f t) = (p f.data && allTree p t && allTree p f.other) := by
  by_cases h : f.side = LEFT <;> simp [plugF, h, allTree] <;>
    cases p f.data <;> cases allTree p t <;> cases allTree p f.other <;> rfl

theorem ordered_plugF (comp : Int → Int → Int) (f : Frame) (t : Tree) :
    ordered comp (plugF f t) = true ↔
      (frameOKB comp f = true ∧ ordered comp t = true ∧
        allTree (fun x =>
          if f.side = LEFT then decide (comp x f.data < 0) else decide (comp x f.data > 0)) t
          = true) := by
  by_cases h : f.side = LEFT <;>
    simp [plugF, h, ordered, frameOKB, Bool.and_eq_true] <;> tauto

theorem holeOKB_cons (comp : Int → Int → Int) (f : Frame) (fs : List Frame) (x : Int) :
    holeOKB comp (f :: fs) x =
      ((if f.side = LEFT then decide (comp x f.data < 0) else decide (comp x f.data > 0)) &&
        holeOKB comp fs x) := by
  simp [holeOKB, List.all_cons]

theorem ordered_plug_iff (comp : Int → Int → Int) (ctx : List Frame) (t : Tree) :
    ordered comp (plug ctx t) = true ↔
      (ctxOrderedB comp ctx = true ∧ ordered comp t = true ∧
        allTree (holeOKB comp ctx) t = true) := by
  induction ctx generalizing t with
  | nil =>
    simp only [plug, ctxOrderedB, true_and]
    constructor
    · intro h
      exact ⟨h, by rw [allTree_iff_mem]; intro x _; simp [holeOKB]⟩
    · exact fun h => h.1
  | cons f fs ih =>
    simp only [plug, ih, ordered_plugF, ctxOrderedB, Bool.and_eq_true]
    constructor
    · rintro ⟨hctx, ⟨hf, ht, hside⟩, hall⟩
      rw [allTree_plugF, Bool.and_eq_true, Bool.and_eq_true] at hall
      refine ⟨⟨⟨⟨hf, hall.1.1⟩, hall.2⟩, hctx⟩, ht, ?_⟩
      rw [allTree_iff_mem]
      intro x hx
      rw [holeOKB_cons, Bool.and_eq_true]
      exact ⟨(allTree_iff_mem _ _).1 hside x hx, (allTree_iff_mem _ _).1 hall.1.2 x hx⟩
    · rintro ⟨⟨⟨⟨hf, hfd⟩, hfo⟩, hctx⟩, ht, hall⟩
      have hsplit : ∀ x ∈ inorder t,
          ((if f.side = LEFT then decide (comp x f.data < 0)
            else decide (comp x f.data > 0)) && holeOKB comp fs x) = true := by
        intro x hx
        have := (allTree_iff_mem _ _).1 hall x hx
        rwa [holeOKB_cons] at this
      refine ⟨hctx, ⟨hf, ht, ?_⟩, ?_⟩
      · rw [allTree_iff_mem]
        intro x hx
        have h2 := hsplit x hx
        rw [Bool.and_eq_true] at h2
        exact h2.1
      · rw [allTree_plugF, Bool.and_eq_true, Bool.and_eq_true]
        refine ⟨⟨hfd, ?_⟩, hfo⟩
        rw [allTree_iff_mem]
        intro x hx
        have h2 := hsplit x hx
        rw [Bool.and_eq_true] at h2
        exact h2.2

theorem isRed_false_iff (t : Tree) : isRed t = false ↔ tColor t = Color.BLACK := by
  cases t with
  | nil => simp [isRed, tColor]
  | node l c d r => cases c <;> simp [isRed, tColor]

theorem isRed_true_iff (t : Tree) : isRed t = true ↔ tColor t = Color.RED := by
  cases t with
  | nil => simp [isRed, tColor]
  | node l c d r => cases c <;> simp [isRed, tColor]

theorem bhv_node (l : Tree) (c : Color) (d : Int) (r : Tree) (n : Nat)
    (hl : bhv l = some n) (hr : bhv r = some n) :
    bhv (Tree.node l c d r) = some (n + (if c = Color.BLACK then 1 else 0)) := by
  simp [bhv, hl, hr]

theorem bhv_node_elim (l : Tree) (c : Color) (d : Int) (r : Tree) (m : Nat)
    (h : bhv (Tree.node l c d r) = some m) :
    ∃ n, bhv l = some n ∧ bhv r = some n ∧
      m = n + (if c = Color.BLACK then 1 else 0) := by
  simp only [bhv] at h
  rcases h1 : bhv l with _ | a <;> rcases h2 : bhv r with _ | b <;> rw [h1, h2] at h <;>
    simp at h
  exact ⟨a, rfl, by rw [h.1], by omega⟩

theorem bhv_plugF (f : Frame) (t : Tree) (n : Nat) (h1 : bhv t = some n)
    (h2 : bhv f.other = some n) :
    bhv (plugF f t) = some (n + (if f.color = Color.BLACK then 1 else 0)) := by
  by_cases h : f.side = LEFT <;> simp [plugF, h, bhv, h1, h2]

theorem bhv_plug_val (ctx : List Frame) (t : Tree) (n : Nat) (h1 : bhv t = some n)
    (h2 : ctxFitsB ctx n = true) : bhv (plug ctx t) = some (n + ctxW ctx) := by
  induction ctx generalizing t n with
  | nil => simpa [plug, ctxW] using h1
  | cons f fs ih =>
    simp only [ctxFitsB, Bool.and_eq_true, decide_eq_true_eq] at h2
    have := ih (plugF f t) (n + (if f.color = Color.BLACK then 1 else 0))
      (bhv_plugF f t n h1 h2.1) h2.2
    simpa [plug, ctxW, Nat.add_assoc] using this

theorem bhv_plug_decompose (ctx : List Frame) (t : Tree) (m : Nat)
    (h : bhv (plug ctx t) = some m) : ∃ n, bhv t = some n ∧ ctxFitsB ctx n = true := by
  induction ctx generalizing t m with
  | nil => exact ⟨m, h, rfl⟩
  | cons f fs ih =>
    obtain ⟨n1, hn1, hfit⟩ := ih (plugF f t) m h
    by_cases hside : f.side = LEFT
    · rw [plugF, if_pos hside] at hn1
      obtain ⟨n, hl, hr, hm⟩ := bhv_node_elim _ _ _ _ _ hn1
      exact ⟨n, hl, by simp [ctxFitsB, hr, hm ▸ hfit, hm]⟩
    · rw [plugF, if_neg hside] at hn1
      obtain ⟨n, hl, hr, hm⟩ := bhv_node_elim _ _ _ _ _ hn1
      exact ⟨n, hr, by simp [ctxFitsB, hl, hm ▸ hfit, hm]⟩

theorem noRedRed_node_iff (l : Tree) (c : Color) (d : Int) (r : Tree) :
    noRedRed (Tree.node l c d r) = true ↔
      ((c = Color.RED → isRed l = false ∧ isRed r = false) ∧
        noRedRed l = true ∧ noRedRed r = true) := by
  cases c <;> simp [noRedRed] <;> tauto

theorem noRR_plugF_iff (f : Frame) (t : Tree) :
    noRedRed (plugF f t) = true ↔
      ((f.color = Color.RED → isRed t = false ∧ isRed f.other = false) ∧
        noRedRed t = true ∧ noRedRed f.other = true) := by
  by_cases h : f.side = LEFT <;> rw [plugF] <;> simp only [h, if_true, if_false] <;>
    rw [noRedRed_node_iff] <;> tauto

theorem tColor_plugF (f : Frame) (t : Tree) : tColor (plugF f t) = f.color := by
  by_cases h : f.side = LEFT <;> simp [plugF, h, tColor]

theorem tColor_plug (ctx : List Frame) (t : Tree) :
    tColor (plug ctx t) = lastColor ctx (tColor t) := by
  induction ctx generalizing t with
  | nil => simp [plug, lastColor]
  | cons f fs ih => simp [plug, lastColor, ih, tColor_plugF]

theorem lastColor_const (fs : List Frame) (a b : Color) (h : fs ≠ []) :
    lastColor fs a = lastColor fs b := by
  cases fs with
  | nil => exact absurd rfl h
  | cons f fs => simp [lastColor]

theorem noRR_plug_iff (ctx : List Frame) (t : Tree) :
    noRedRed (plug ctx t) = true ↔
      (noRedRed t = true ∧ noRRctxB ctx (tColor t) = true) := by
  induction ctx generalizing t with
  | nil => simp [plug, noRRctxB]
  | cons f fs ih =>
    rw [plug, ih, noRR_plugF_iff, tColor_plugF]
    cases hfc : f.color <;>
      simp [noRRctxB, hfc, isRed_false_iff, Bool.not_eq_true'] <;> tauto

theorem noRRctxB_red_to_black (ctx : List Frame) (h : noRRctxB ctx Color.RED = true) :
    noRRctxB ctx Color.BLACK = true := by
  cases ctx with
  | nil => rfl
  | cons f fs => cases hfc : f.color <;> simp_all [noRRctxB]

theorem noRedRed_setColor_black (t : Tree) (h : noRedRed t = true) :
    noRedRed (setColor t Color.BLACK) = true := by
  cases t with
  | nil => rfl
  | node l c d r =>
    rw [noRedRed_node_iff] at h
    simp only [setColor]
    rw [noRedRed_node_iff]
    exact ⟨fun h' => absurd h' (by simp), h.2⟩

theorem ctxW_append (a b : List Frame) : ctxW (a ++ b) = ctxW a + ctxW b := by
  induction a with
  | nil => simp [ctxW]
  | cons f fs ih => simp [ctxW, ih, Nat.add_assoc]

theorem ctxFitsB_append (a b : List Frame) (n : Nat) :
    ctxFitsB (a ++ b) n = (ctxFitsB a n && ctxFitsB b (n + ctxW a)) := by
  induction a generalizing n with
  | nil => simp [ctxFitsB, ctxW]
  | cons f fs ih =>
    have h2 := ih (n + (if f.color = Color.BLACK then 1 else 0))
    simp only [List.cons_append, ctxFitsB, ctxW, List.append_eq, h2, Bool.and_assoc,
      Nat.add_assoc]

theorem lastColor_append (a b : List Frame) (c : Color) :
    lastColor (a ++ b) c = lastColor b (lastColor a c) := by
  induction a generalizing c with
  | nil => simp [lastColor]
  | cons f fs ih => simp [lastColor, ih]

theorem noRRctxB_append (a b : List Frame) (hc : Color) :
    noRRctxB (a ++ b) hc = (noRRctxB a hc && noRRctxB b (lastColor a hc)) := by
  induction a generalizing hc with
  | nil => simp [noRRctxB, lastColor]
  | cons f fs ih => simp [noRRctxB, ih, lastColor, Bool.and_assoc]

theorem ctxL_append (a b : List Frame) : ctxL (a ++ b) = ctxL b ++ ctxL a := by
  induction a with
  | nil => simp [ctxL]
  | cons f fs ih =>
    by_cases h : f.side = LEFT <;> simp [ctxL, h, ih]

theorem ctxR_append (a b : List Frame) : ctxR (a ++ b) = ctxR a ++ ctxR b := by
  induction a with
  | nil => simp [ctxR]
  | cons f fs ih =>
    by_cases h : f.side = LEFT <;> simp [ctxR, h, ih]

theorem holeOKB_append (comp : Int → Int → Int) (a b : List Frame) (x : Int) :
    holeOKB comp (a ++ b) x = (holeOKB comp a x && holeOKB comp b x) := by
  simp [holeOKB, List.all_append]

theorem ordered_iff_pairwise (comp : Int → Int → Int) (hs : IsStrictCmp comp) (t : Tree) :
    ordered comp t = true ↔ (inorder t).Pairwise (fun a b => comp a b < 0) := by
  induction t with
  | nil => simp [ordered, inorder]
  | node l c d r ihl ihr =>
    simp only [ordered, inorder, Bool.and_eq_true, ihl, ihr]
    rw [List.pairwise_append]
    constructor
    · rintro ⟨⟨⟨hald, hard⟩, hpl⟩, hpr⟩
      rw [allTree_iff_mem] at hald hard
      refine ⟨hpl, ?_, ?_⟩
      · rw [List.pairwise_cons]
        refine ⟨fun y hy => ?_, hpr⟩
        have := hard y hy
        simp only [decide_eq_true_eq] at this
        exact (hs.flip d y).2 this
      · intro x hx y hy
        have hxd : comp x d < 0 := by simpa using hald x hx
        rcases List.mem_cons.1 hy with rfl | hy
        · exact hxd
        · have hdy : comp d y < 0 := by
            have := hard y hy
            simp only [decide_eq_true_eq] at this
            exact (hs.flip d y).2 this
          exact hs.lt_trans x d y hxd hdy
    · rintro ⟨hpl, hpdr, hcross⟩
      rw [List.pairwise_cons] at hpdr
      refine ⟨⟨⟨?_, ?_⟩, hpl⟩, hpdr.2⟩
      · rw [allTree_iff_mem]
        intro x hx
        have := hcross x hx d (List.mem_cons_self d _)
        simpa using this
      · rw [allTree_iff_mem]
        intro y hy
        have := hpdr.1 y hy
        have := (hs.flip d y).1 this
        simpa using this

theorem ctx_bounds (comp : Int → Int → Int) (hs : IsStrictCmp comp) (ctx : List Frame)
    (e : Int) (hord : ctxOrderedB comp ctx = true) (hhole : holeOKB comp ctx e = true) :
    (∀ x ∈ ctxL ctx, comp x e < 0) ∧ (∀ x ∈ ctxR ctx, comp e x < 0) := by
  induction ctx with
  | nil => simp [ctxL, ctxR]
  | cons f fs ih =>
    simp only [ctxOrderedB, Bool.and_eq_true] at hord
    obtain ⟨⟨⟨hf, hfd⟩, _hfall⟩, hctx⟩ := hord
    rw [holeOKB_cons, Bool.and_eq_true] at hhole
    obtain ⟨hside, hrest⟩ := hhole
    obtain ⟨ihL, ihR⟩ := ih hctx hrest
    by_cases hsd : f.side = LEFT
    · rw [if_pos hsd, decide_eq_true_eq] at hside
      refine ⟨by simpa [ctxL, hsd] using ihL, ?_⟩
      simp only [ctxR, hsd, if_true]
      intro x hx
      rcases List.mem_cons.1 hx with rfl | hx
      · exact hside
      rcases List.mem_append.1 hx with hx | hx
      · rw [frameOKB, if_pos hsd, Bool.and_eq_true] at hf
        have hxf : comp x f.data > 0 := by
          simpa using (allTree_iff_mem _ _).1 hf.1 x hx
        have hfx : comp f.data x < 0 := (hs.flip f.data x).2 hxf
        exact hs.lt_trans e f.data x hside hfx
      · exact ihR x hx
    · rw [if_neg hsd, decide_eq_true_eq] at hside
      refine ⟨?_, by simpa [ctxR, hsd] using ihR⟩
      simp only [ctxL, hsd, if_false]
      intro x hx
      rcases List.mem_append.1 hx with hx | hx
      rcases List.mem_append.1 hx with hx | hx
      · exact ihL x hx
      · rw [frameOKB, if_neg hsd, Bool.and_eq_true] at hf
        have hxf : comp x f.data < 0 := by
          simpa using (allTree_iff_mem _ _).1 hf.1 x hx
        have hfe : comp f.data e < 0 := (hs.flip f.data e).2 hside
        exact hs.lt_trans x f.data e hxf hfe
      · simp only [List.mem_singleton] at hx
        subst hx
        exact (hs.flip f.data e).2 hside

theorem orderedInsert_append (comp : Int → Int → Int) (hs : IsStrictCmp comp) (e : Int)
    (A B : List Int) (hA : ∀ x ∈ A, comp x e < 0) (hB : ∀ x ∈ B, comp e x < 0) :
    orderedInsert comp e (A ++ B) = A ++ e :: B := by
  induction A with
  | nil =>
    cases B with
    | nil => rfl
    | cons b bs =>
      have := hB b (List.mem_cons_self b bs)
      simp [orderedInsert, this]
  | cons a as ih =>
    have hae : comp a e < 0 := hA a (List.mem_cons_self a as)
    have : ¬comp e a < 0 := by
      have := (hs.flip a e).1 hae
      omega
    simp only [List.cons_append, orderedInsert, this, if_false]
    rw [List.append_eq, ih (fun x hx => hA x (List.mem_cons_of_mem a hx))]

theorem bhv_red_children (l : Tree) (d : Int) (r : Tree) (m : Nat)
    (h : bhv (Tree.node l Color.RED d r) = some m) :
    bhv l = some m ∧ bhv r = some m := by
  obtain ⟨n, hl, hr, hm⟩ := bhv_node_elim _ _ _ _ _ h
  simp only [if_neg (by simp : ¬Color.RED = Color.BLACK), Nat.add_zero] at hm
  exact ⟨hm ▸ hl, hm ▸ hr⟩

theorem bhv_black_children (l : Tree) (d : Int) (r : Tree) (m : Nat)
    (h : bhv (Tree.node l Color.BLACK d r) = some m) :
    ∃ n, m = n + 1 ∧ bhv l = some n ∧ bhv r = some n := by
  obtain ⟨n, hl, hr, hm⟩ := bhv_node_elim _ _ _ _ _ h
  simp only [if_pos rfl] at hm
  exact ⟨n, hm, hl, hr⟩

theorem isRed_node_false (l : Tree) (c : Color) (d : Int) (r : Tree)
    (h : isRed (Tree.node l c d r) = false) : c = Color.BLACK := by
  cases c
  · simp [isRed] at h
  · rfl

theorem sidesOKB_cons (f : Frame) (fs : List Frame) :
    sidesOKB (f :: fs) = true ↔
      ((f.side = LEFT ∨ f.side = RIGHT) ∧ sidesOKB fs = true) := by
  simp [sidesOKB, List.all_cons]

/-- Witness for C9 at a concrete tree: parent 2 with left child 1 under a
root frame. -/
theorem findNodeCtx_found (comp : Int → Int → Int) (e : Int) :
    ∀ (t : Tree) (acc ctx : List Frame) (focus : Tree),
      findNodeCtx comp e t acc = some (ctx, focus) →
      ∃ l c d r, focus = Tree.node l c d r ∧ comp e d = 0 ∧ d ∈ inorder t := by
  intro t
  induction t with
  | nil => intro acc ctx focus h; simp [findNodeCtx] at h
  | node l c d r ihl ihr =>
    intro acc ctx focus h
    simp only [findNodeCtx] at h
    split_ifs at h with h0 h1
    · simp only [Option.some.injEq, Prod.mk.injEq] at h
      exact ⟨l, c, d, r, h.2.symm, by simpa [EQUAL] using h0, by simp [inorder]⟩
    · obtain ⟨l', c', d', r', hf, hc, hm⟩ := ihl _ _ _ h
      exact ⟨l', c', d', r', hf, hc, by simp [inorder, hm]⟩
    · obtain ⟨l', c', d', r', hf, hc, hm⟩ := ihr _ _ _ h
      exact ⟨l', c', d', r', hf, hc, by simp [inorder, hm]⟩

/-- Claim C4: for every tree and payload with no comparator-equal node in the
tree, delete returns FAILURE and leaves the tree (structure and size)
completely unchanged with no destructor call; a NULL tree reference also
fails cleanly. -/
theorem delete_not_found (comp : Int → Int → Int) (t : RBTree) (e : Int)
    (h : ∀ x ∈ inorder t.root, comp e x ≠ 0) :
    deleteFromRBTree comp t e = (FAILURE, t, []) ∧
      apiDelete comp none (some e) = some (FAILURE, none, []) := by
  constructor
  · cases hf : findNodeCtx comp e t.root [] with
    | none => simp [deleteFromRBTree, hf]
    | some p =>
      obtain ⟨l, c, d, r, _, hcomp, hmem⟩ :=
        findNodeCtx_found comp e t.root [] p.1 p.2 (by rw [hf])
      exact absurd hcomp (h d hmem)
  · rfl

/-- Witness for C4: deleting 2 from the singleton tree holding 1. -/
theorem delete_not_found_witness :
    deleteFromRBTree intComp (RBTree.mk (Tree.node Tree.nil Color.BLACK 1 Tree.nil) 1) 2 =
        (FAILURE, RBTree.mk (Tree.node Tree.nil Color.BLACK 1 Tree.nil) 1, []) ∧
      apiDelete intComp none (some 2) = some (FAILURE, none, []) :=
  delete_not_found intComp (RBTree.mk (Tree.node Tree.nil Color.BLACK 1 Tree.nil) 1) 2
    (by decide)

theorem insertDescend_none_of_mem (comp : Int → Int → Int) (hs : IsStrictCmp comp) (e : Int) :
    ∀ (t : Tree) (acc : List Frame) (x : Int), ordered comp t = true → x ∈ inorder t →
      comp e x = 0 → insertDescend comp e t acc = none := by
  intro t
  induction t with
  | nil => intro acc x _ hmem; simp [inorder] at hmem
  | node l c d r ihl ihr =>
    intro acc x hord hmem hcomp
    simp only [ordered, Bool.and_eq_true] at hord
    obtain ⟨⟨⟨hallL, hallR⟩, hordL⟩, hordR⟩ := hord
    simp only [inorder, List.mem_append, List.mem_cons] at hmem
    simp only [insertDescend]
    by_cases h0 : comp e d = EQUAL
    · simp [h0]
    · have hne : ¬comp e d = 0 := by simpa [EQUAL] using h0
      rw [if_neg h0]
      by_cases hlt : comp e d < EQUAL
      · rw [if_pos hlt]
        rcases hmem with hx | hx | hx
        · exact ihl _ x hordL hx hcomp
        · exact absurd (hx ▸ hcomp) hne
        · exfalso
          have hxd : comp x d > 0 := by
            simpa using (allTree_iff_mem _ _).1 hallR x hx
          have hdx : comp d x < 0 := (hs.flip d x).2 hxd
          have : comp e x < 0 := hs.lt_trans e d x (by simpa [EQUAL] using hlt) hdx
          omega
      · rw [if_neg hlt]
        have hgt : comp e d > 0 := by
          simp only [EQUAL] at h0 hlt
          omega
        rcases hmem with hx | hx | hx
        · exfalso
          have hxd : comp x d < 0 := by
            simpa using (allTree_iff_mem _ _).1 hallL x hx
          have hde : comp d e < 0 := (hs.flip d e).2 hgt
          have hxe : comp x e < 0 := hs.lt_trans x d e hxd hde
          have : comp e x > 0 := (hs.flip x e).1 hxe
          omega
        · exact absurd (hx ▸ hcomp) hne
        · exact ihr _ x hordR hx hcomp

/-- Claim C3: for every (BST-ordered) tree and every payload comparing equal
to one already stored, insert returns FAILURE and leaves the tree — size and
structure — unchanged. -/
theorem insert_duplicate_fails (comp : Int → Int → Int) (t : RBTree) (e : Int)
    (hs : IsStrictCmp comp) (hv : ordered comp t.root = true)
    (hx : ∃ x ∈ inorder t.root, comp e x = 0) :
    insertToRBTree comp t e = (FAILURE, t, []) := by
  obtain ⟨x, hmem, hcomp⟩ := hx
  have hroot : ¬t.root = Tree.nil := by
    intro h; rw [h] at hmem; simp [inorder] at hmem
  simp only [insertToRBTree]
  rw [if_neg hroot, insertNode,
    insertDescend_none_of_mem comp hs e t.root [] x hv hmem hcomp]

/-- Witness for C3: inserting 5 into the singleton tree holding 5. -/
theorem insert_duplicate_fails_witness :
    insertToRBTree intComp (RBTree.mk (Tree.node Tree.nil Color.BLACK 5 Tree.nil) 1) 5 =
      (FAILURE, RBTree.mk (Tree.node Tree.nil Color.BLACK 5 Tree.nil) 1, []) :=
  insert_duplicate_fails intComp (RBTree.mk (Tree.node Tree.nil Color.BLACK 5 Tree.nil) 1) 5
    intComp_strict (by decide) ⟨5, by decide, by decide⟩

/-- Claim C10: a failed duplicate insert never passes the caller's payload to
the destructor — the destructor-call trace of the insert is empty (the C code
only `free`s the node storage it allocated itself), so payload ownership
stays with the caller. -/
theorem insert_duplicate_no_destructor (comp : Int → Int → Int) (t : RBTree) (e : Int)
    (hs : IsStrictCmp comp) (hv : ordered comp t.root = true)
    (hx : ∃ x ∈ inorder t.root, comp e x = 0) :
    (insertToRBTree comp t e).2.2 = [] := by
  obtain ⟨x, hmem, hcomp⟩ := hx
  have hroot : ¬t.root = Tree.nil := by
    intro h; rw [h] at hmem; simp [inorder] at hmem
  simp only [insertToRBTree]
  rw [if_neg hroot, insertNode,
    insertDescend_none_of_mem comp hs e t.root [] x hv hmem hcomp]

/-- Witness for C10: the duplicate insert of 5 destructs nothing. -/
theorem insert_duplicate_no_destructor_witness :
    (insertToRBTree intComp (RBTree.mk (Tree.node Tree.nil Color.BLACK 5 Tree.nil) 1) 5).2.2 =
      [] :=
  insert_duplicate_no_destructor intComp
    (RBTree.mk (Tree.node Tree.nil Color.BLACK 5 Tree.nil) 1) 5 intComp_strict (by decide)
    ⟨5, by decide, by decide⟩

/-- Counterexample for C5 as stated: `delete` and `contains` do NOT report a
NULL payload as a failure — on a non-empty tree they pass the NULL payload
straight to the caller's comparator (undefined behavior, modelled as the
outer `none`), instead of returning a FAILURE result. -/
theorem api_null_payload_not_failure :
    apiDelete intComp (some (RBTree.mk (Tree.node Tree.nil Color.BLACK 1 Tree.nil) 1)) none =
        none ∧
      apiContains intComp (some (RBTree.mk (Tree.node Tree.nil Color.BLACK 1 Tree.nil) 1))
        none = none := by
  constructor <;> rfl

/-- Amended C5: a NULL tree is reported synchronously as a simple failure by
insert, delete, contains and forEach; a NULL payload is checked and reported
as failure only by insert; delete and contains forward a NULL payload to the
comparator (defined — and failing cleanly — only when the tree is empty,
`ht`).  In every reported-failure case the tree is unchanged and remains
usable. -/
theorem api_null_checks {σ : Type} (comp : Int → Int → Int) (t te : RBTree) (e : Int)
    (func : Int → σ → Int × σ) (args : σ) (ht : te.root = Tree.nil) :
    apiInsert comp none (some e) = (FAILURE, none, []) ∧
      apiInsert comp (some t) none = (FAILURE, some t, []) ∧
      apiDelete comp none (some e) = some (FAILURE, none, []) ∧
      apiDelete comp none none = some (FAILURE, none, []) ∧
      apiContains comp none (some e) = some FAILURE ∧
      apiForEach none func args = (FAILURE, args) ∧
      apiDelete comp (some te) none = some (FAILURE, some te, []) ∧
      apiContains comp (some te) none = some 0 := by
  refine ⟨rfl, rfl, rfl, rfl, rfl, rfl, ?_, ?_⟩ <;> simp [apiDelete, apiContains, ht]

/-- Witness for the amended C5 at concrete arguments. -/
theorem api_null_checks_witness :
    apiInsert intComp none (some 3) = (FAILURE, none, []) ∧
      apiInsert intComp (some newRBTree) none = (FAILURE, some newRBTree, []) ∧
      apiDelete intComp none (some 3) = some (FAILURE, none, []) ∧
      apiDelete intComp none none = some (FAILURE, none, []) ∧
      apiContains intComp none (some 3) = some FAILURE ∧
      apiForEach none (fun (x : Int) (s : List Int) => (SUCCESS, x :: s)) [] = (FAILURE, []) ∧
      apiDelete intComp (some newRBTree) none = some (FAILURE, some newRBTree, []) ∧
      apiContains intComp (some newRBTree) none = some 0 :=
  api_null_checks intComp newRBTree newRBTree 3
    (fun (x : Int) (s : List Int) => (SUCCESS, x :: s)) [] rfl

/-- Claim C7: in double-black resolution, when the deficient position's
sibling is BLACK and the far nephew is RED (the close nephew being BLACK or
NULL — when it is red the code first rotates it above the sibling and
recomputes the sibling, which reduces to this case), the procedure swaps the
parent's and sibling's colors, recolors the far nephew BLACK, and rotates the
sibling above the parent; the rebuilt subtree carries black count
`n + 1 + weight of the parent color`, exactly what the position carried
before the deletion, so the deficiency is absorbed and resolution terminates.
Both the LEFT-deficiency and RIGHT-deficiency cases are covered. -/
theorem blackSiblingDB_far_red (rest : List Frame) (f : Frame) (focus sl sr : Tree)
    (sd : Int) (n : Nat)
    (hfoc : bhv focus = some n) (hsl : bhv sl = some n) (hsr : bhv sr = some n)
    (hnf : noRedRed focus = true) (hnsl : noRedRed sl = true) (hnsr : noRedRed sr = true) :
    (f.side = LEFT → isRed sr = true → isRed sl = false →
      blackSiblingDB rest f (Tree.node sl Color.BLACK sd sr) focus =
          plug rest (Tree.node (Tree.node focus Color.BLACK f.data sl) f.color sd
            (setColor sr Color.BLACK)) ∧
        bhv (Tree.node (Tree.node focus Color.BLACK f.data sl) f.color sd
            (setColor sr Color.BLACK)) =
          some (n + 1 + (if f.color = Color.BLACK then 1 else 0)) ∧
        noRedRed (Tree.node (Tree.node focus Color.BLACK f.data sl) f.color sd
          (setColor sr Color.BLACK)) = true) ∧
    (f.side = RIGHT → isRed sl = true → isRed sr = false →
      blackSiblingDB rest f (Tree.node sl Color.BLACK sd sr) focus =
          plug rest (Tree.node (setColor sl Color.BLACK) f.color sd
            (Tree.node sr Color.BLACK f.data focus)) ∧
        bhv (Tree.node (setColor sl Color.BLACK) f.color sd
            (Tree.node sr Color.BLACK f.data focus)) =
          some (n + 1 + (if f.color = Color.BLACK then 1 else 0)) ∧
        noRedRed (Tree.node (setColor sl Color.BLACK) f.color sd
          (Tree.node sr Color.BLACK f.data focus)) = true) := by
  constructor
  · intro hside hfar hclose
    cases sr with
    | nil => simp [isRed] at hfar
    | node srl src srd srr =>
      have hsrc : src = Color.RED := by
        cases src
        · rfl
        · simp [isRed] at hfar
      subst hsrc
      have hbh : bhv srl = some n ∧ bhv srr = some n := by
        simp only [bhv] at hsr
        rcases h1 : bhv srl with _ | a <;> rcases h2 : bhv srr with _ | b <;>
          rw [h1, h2] at hsr <;> simp at hsr
        constructor <;> congr 1 <;> omega
      refine ⟨?_, ?_, ?_⟩
      · rw [blackSiblingDB]
        rw [if_neg (by simp [hfar]), closeFar]
        rw [closeRedNephewDB]
        rw [if_neg (by simp [hclose, hside]), if_neg (by simp [hside, LEFT, RIGHT])]
        rw [farRedNephewDB]
        rw [if_pos (Or.inl ⟨hside, hfar⟩)]
        simp [hfar, hside, rotate, LEFT, RIGHT, setColor]
      · simp only [bhv, setColor, hfoc, hsl, hbh.1, hbh.2]
        simp
      · simp only [noRedRed, setColor, isRed, Bool.and_eq_true] at hnsr ⊢
        cases f.color <;> simp_all [isRed]
  · intro hside hfar hclose
    cases sl with
    | nil => simp [isRed] at hfar
    | node sll slc sld slr =>
      have hslc : slc = Color.RED := by
        cases slc
        · rfl
        · simp [isRed] at hfar
      subst hslc
      have hbh : bhv sll = some n ∧ bhv slr = some n := by
        simp only [bhv] at hsl
        rcases h1 : bhv sll with _ | a <;> rcases h2 : bhv slr with _ | b <;>
          rw [h1, h2] at hsl <;> simp at hsl
        constructor <;> congr 1 <;> omega
      refine ⟨?_, ?_, ?_⟩
      · rw [blackSiblingDB]
        rw [if_neg (by simp [hfar]), closeFar]
        rw [closeRedNephewDB]
        rw [if_neg (by simp [hside, LEFT, RIGHT]), if_neg (by simp [hclose, hside])]
        rw [farRedNephewDB]
        rw [if_pos (Or.inr ⟨hside, hfar⟩)]
        simp [hclose, hfar, hside, rotate, LEFT, RIGHT, setColor]
      · simp only [bhv, setColor, hfoc, hsr, hbh.1, hbh.2]
        simp
      · simp only [noRedRed, setColor, isRed, Bool.and_eq_true] at hnsl ⊢
        cases f.color <;> simp_all [isRed]

/-- Witness for C7: a LEFT deficiency under a black parent 10, sibling 20
with red far nephew 30. -/
theorem blackSiblingDB_far_red_witness :
    blackSiblingDB [] (Frame.mk LEFT Color.BLACK 10 Tree.nil)
        (Tree.node Tree.nil Color.BLACK 20 (Tree.node Tree.nil Color.RED 30 Tree.nil))
        Tree.nil =
      plug [] (Tree.node (Tree.node Tree.nil Color.BLACK 10 Tree.nil) Color.BLACK 20
        (setColor (Tree.node Tree.nil Color.RED 30 Tree.nil) Color.BLACK)) ∧
    bhv (Tree.node (Tree.node Tree.nil Color.BLACK 10 Tree.nil) Color.BLACK 20
        (setColor (Tree.node Tree.nil Color.RED 30 Tree.nil) Color.BLACK)) =
      some (0 + 1 + (if (Frame.mk LEFT Color.BLACK 10 Tree.nil).color = Color.BLACK
        then 1 else 0)) ∧
    noRedRed (Tree.node (Tree.node Tree.nil Color.BLACK 10 Tree.nil) Color.BLACK 20
      (setColor (Tree.node Tree.nil Color.RED 30 Tree.nil) Color.BLACK)) = true :=
  (blackSiblingDB_far_red [] (Frame.mk LEFT Color.BLACK 10 Tree.nil) Tree.nil Tree.nil
    (Tree.node Tree.nil Color.RED 30 Tree.nil) 20 0 rfl rfl (by decide) rfl rfl
    (by decide)).1 rfl (by decide) (by decide)

theorem rotate_inorder_and_promote_witness :
    inorder (plug [Frame.mk LEFT Color.BLACK 5 Tree.nil]
        (rotate LEFT (Tree.node (Tree.node Tree.nil Color.RED 1 Tree.nil) Color.BLACK 2
          Tree.nil))) =
      inorder (plug [Frame.mk LEFT Color.BLACK 5 Tree.nil]
        (Tree.node (Tree.node Tree.nil Color.RED 1 Tree.nil) Color.BLACK 2 Tree.nil)) ∧
      rootData (rotate LEFT (Tree.node (Tree.node Tree.nil Color.RED 1 Tree.nil) Color.BLACK 2
        Tree.nil)) = rootData (Tree.node Tree.nil Color.RED 1 Tree.nil) ∧
      tColor (rotate LEFT (Tree.node (Tree.node Tree.nil Color.RED 1 Tree.nil) Color.BLACK 2
        Tree.nil)) = tColor (Tree.node Tree.nil Color.RED 1 Tree.nil) :=
  rotate_inorder_and_promote [Frame.mk LEFT Color.BLACK 5 Tree.nil]
    (Tree.node Tree.nil Color.RED 1 Tree.nil) (Tree.node Tree.nil Color.RED 1 Tree.nil)
    Tree.nil Color.BLACK 2 LEFT (Or.inl ⟨rfl, rfl⟩) (by decide)




theorem solveDB_cons_black (f : Frame) (rest : List Frame) (focus sl sr : Tree)
    (sc : Color) (sd : Int) (hsib : f.other = Tree.node sl sc sd sr)
    (hsc : ¬sc = Color.RED) :
    solveDB (f :: rest) focus = blackSiblingDB rest f (Tree.node sl sc sd sr) focus := by
  obtain ⟨fs, fc, fd, fo⟩ := f
  simp only [] at hsib
  subst hsib
  rw [solveDB]
  simp [hsc]

theorem solveDB_cons_red (f : Frame) (rest : List Frame) (focus sl sr : Tree) (sd : Int)
    (hsib : f.other = Tree.node sl Color.RED sd sr) :
    solveDB (f :: rest) focus =
      solveDB (Frame.mk f.side Color.RED f.data (if f.side = LEFT then sl else sr) ::
        Frame.mk f.side Color.BLACK sd (if f.side = LEFT then sr else sl) :: rest) focus := by
  obtain ⟨fs, fc, fd, fo⟩ := f
  simp only [] at hsib
  subst hsib
  rw [solveDB]
  simp

set_option maxHeartbeats 1000000 in
theorem solveDB_spec (ctx : List Frame) (focus : Tree) :
    ∀ n : Nat, sidesOKB ctx = true → bhv focus = some n → isRed focus = false →
      noRedRed focus = true → ctxFitsB ctx (n + 1) = true →
      noRRctxB ctx Color.BLACK = true →
      (noRedRed (solveDB ctx focus) = true ∧ (bhv (solveDB ctx focus)).isSome = true ∧
        inorder (solveDB ctx focus) = inorder (plug ctx focus) ∧
        (lastColor ctx Color.BLACK = Color.BLACK → isRed (solveDB ctx focus) = false)) := by
  induction ctx, focus using solveDB.induct with
  | motive2 =>
    rename_i rest f sib focus
    exact ∀ n : Nat, sidesOKB (f :: rest) = true → bhv focus = some n → isRed focus = false →
        noRedRed focus = true → bhv sib = some (n + 1) → isRed sib = false →
        noRedRed sib = true →
        ctxFitsB rest (n + 1 + (if f.color = Color.BLACK then 1 else 0)) = true →
        noRRctxB rest f.color = true →
        (noRedRed (blackSiblingDB rest f sib focus) = true ∧
          (bhv (blackSiblingDB rest f sib focus)).isSome = true ∧
          inorder (blackSiblingDB rest f sib focus) =
            inorder (plug rest (plugF (Frame.mk f.side f.color f.data sib) focus)) ∧
          (lastColor rest f.color = Color.BLACK →
            isRed (blackSiblingDB rest f sib focus) = false))
  | case1 focus =>
    intro n hsides hb hred hnrr hfits hctx
    refine ⟨?_, ?_, ?_, ?_⟩ <;> simp [solveDB, plug, hnrr, hb, hred]
  | case2 focus g rest' hnil =>
    intro n hsides hb hred hnrr hfits hctx
    rw [ctxFitsB, Bool.and_eq_true, decide_eq_true_eq] at hfits
    rw [hnil] at hfits
    simp [bhv] at hfits
  | case3 focus g rest' sl sd sr hsib ih =>
    intro n hsides hb hred hnrr hfits hctx
    rw [noRRctxB, Bool.and_eq_true, Bool.and_eq_true] at hctx
    obtain ⟨⟨hcond, hnrs⟩, hchain⟩ := hctx
    have hgcb : g.color = Color.BLACK := by
      cases hgc : g.color
      · rw [hgc, if_pos rfl, hsib] at hcond
        simp [isRed] at hcond
      · rfl
    rw [ctxFitsB, Bool.and_eq_true, decide_eq_true_eq] at hfits
    obtain ⟨hbs, hfits'⟩ := hfits
    rw [hsib] at hbs hnrs
    obtain ⟨hbsl, hbsr⟩ := bhv_red_children _ _ _ _ hbs
    rw [noRedRed_node_iff] at hnrs
    obtain ⟨hch, hnsl, hnsr⟩ := hnrs
    obtain ⟨hredl, hredr⟩ := hch rfl
    rw [sidesOKB_cons] at hsides
    obtain ⟨hgs, hsrest⟩ := hsides
    rw [hgcb] at hfits' hchain
    have hfits2 : ctxFitsB rest' (n + 1 + 1) = true := by simpa using hfits'
    simp only [dite_eq_ite] at ih
    have hsides' : sidesOKB (Frame.mk g.side Color.RED g.data
        (if g.side = LEFT then sl else sr) :: Frame.mk g.side Color.BLACK sd
        (if g.side = LEFT then sr else sl) :: rest') = true := by
      rw [sidesOKB_cons, sidesOKB_cons]
      exact ⟨hgs, hgs, hsrest⟩
    have hfitsN : ctxFitsB (Frame.mk g.side Color.RED g.data
        (if g.side = LEFT then sl else sr) :: Frame.mk g.side Color.BLACK sd
        (if g.side = LEFT then sr else sl) :: rest') (n + 1) = true := by
      rcases hgs with hL | hR
      · simp [ctxFitsB, hL, hbsl, hbsr, hfits2]
      · simp [ctxFitsB, hR, LEFT, RIGHT, hbsl, hbsr, hfits2]
    have hctxN : noRRctxB (Frame.mk g.side Color.RED g.data
        (if g.side = LEFT then sl else sr) :: Frame.mk g.side Color.BLACK sd
        (if g.side = LEFT then sr else sl) :: rest') Color.BLACK = true := by
      rcases hgs with hL | hR
      · simp [noRRctxB, hL, hredl, hredr, hnsl, hnsr, hchain]
      · simp [noRRctxB, hR, LEFT, RIGHT, hredl, hredr, hnsl, hnsr, hchain]
    obtain ⟨c1, c2, c3, c4⟩ := ih n hsides' hb hred hnrr hfitsN hctxN
    rw [solveDB_cons_red g rest' focus sl sr sd hsib]
    refine ⟨c1, c2, ?_, ?_⟩
    · rw [c3]
      rw [inorder_plug, inorder_plug]
      rcases hgs with hL | hR
      · simp [ctxL, ctxR, hL, hsib, inorder]
      · simp [ctxL, ctxR, hR, LEFT, RIGHT, hsib, inorder]
    · intro hlast
      refine c4 ?_
      simp only [lastColor] at hlast ⊢
      rw [hgcb] at hlast
      exact hlast
  | case4 focus g rest' sl sc sd sr hsib hsc ih =>
    intro n hsides hb hred hnrr hfits hctx
    have hsc' : sc = Color.BLACK := by
      cases sc
      · exact absurd rfl hsc
      · rfl
    subst hsc'
    rw [ctxFitsB, Bool.and_eq_true, decide_eq_true_eq] at hfits
    rw [hsib] at hfits
    obtain ⟨hbs, hfits'⟩ := hfits
    rw [noRRctxB, Bool.and_eq_true, Bool.and_eq_true] at hctx
    obtain ⟨⟨_hcond, hnrs⟩, hchain⟩ := hctx
    rw [hsib] at hnrs
    have ihres := ih n hsides hb hred hnrr hbs rfl hnrs hfits' hchain
    rw [solveDB_cons_black g rest' focus sl sr Color.BLACK sd hsib (by simp)]
    refine ⟨ihres.1, ihres.2.1, ?_, ?_⟩
    · rw [ihres.2.2.1, ← hsib]
      rfl
    · intro hlast
      exact ihres.2.2.2 hlast
  | case5 rest f focus =>
    intro n hsides hb hred hnrr hsibb hsibr hsibn hfits hctx
    simp [bhv] at hsibb
  | case6 rest f focus sl sc sd sr hblack hfc =>
    intro n hsides hb hred hnrr hsibb hsibr hsibn hfits hctx
    obtain ⟨hbl, hbr⟩ := hblack
    have hscb : sc = Color.BLACK := isRed_node_false _ _ _ _ hsibr
    subst hscb
    obtain ⟨m, hm, hbsl, hbsr⟩ := bhv_black_children _ _ _ _ hsibb
    have hme : m = n := by omega
    rw [hme] at hbsl hbsr
    rw [noRedRed_node_iff] at hsibn
    obtain ⟨-, hnsl, hnsr⟩ := hsibn
    have hunf : blackSiblingDB rest f (Tree.node sl Color.BLACK sd sr) focus =
        plug rest (plugF (Frame.mk f.side Color.BLACK f.data
          (Tree.node sl Color.RED sd sr)) focus) := by
      rw [blackSiblingDB]
      rw [if_pos ⟨hbl, hbr⟩, if_pos hfc, closeFar, closeRedNephewDB]
      rw [if_neg (by simp [hbl]), if_neg (by simp [hbr])]
      rw [farRedNephewDB]
      rw [if_neg (by simp [hbl, hbr])]
    rw [hunf]
    have hsibred : bhv (Tree.node sl Color.RED sd sr) = some n := by
      simp [bhv, hbsl, hbsr]
    have hbP : bhv (plugF (Frame.mk f.side Color.BLACK f.data
        (Tree.node sl Color.RED sd sr)) focus) = some (n + 1) := by
      have := bhv_plugF (Frame.mk f.side Color.BLACK f.data
        (Tree.node sl Color.RED sd sr)) focus n hb hsibred
      simpa using this
    have hfits' : ctxFitsB rest (n + 1) = true := by
      rw [hfc] at hfits
      simpa using hfits
    have hnrrP : noRedRed (plugF (Frame.mk f.side Color.BLACK f.data
        (Tree.node sl Color.RED sd sr)) focus) = true := by
      rw [noRR_plugF_iff]
      refine ⟨by simp, hnrr, ?_⟩
      rw [noRedRed_node_iff]
      exact ⟨fun _ => ⟨hbl, hbr⟩, hnsl, hnsr⟩
    refine ⟨?_, ?_, ?_, ?_⟩
    · rw [noRR_plug_iff]
      refine ⟨hnrrP, ?_⟩
      rw [tColor_plugF]
      rw [hfc] at hctx
      exact noRRctxB_red_to_black rest hctx
    · rw [bhv_plug_val rest _ (n + 1) hbP hfits']
      rfl
    · rw [inorder_plug, inorder_plug, inorder_plugF, inorder_plugF]
      simp [inorder]
    · intro hlast
      rw [isRed_false_iff, tColor_plug, tColor_plugF]
      cases hr : rest with
      | nil => rfl
      | cons a as =>
        rw [← hr]
        rw [lastColor_const rest Color.BLACK f.color (by rw [hr]; simp)]
        exact hlast
  | case7 rest f focus sl sc sd sr hblack hfc ih =>
    intro n hsides hb hred hnrr hsibb hsibr hsibn hfits hctx
    obtain ⟨hbl, hbr⟩ := hblack
    have hfcb : f.color = Color.BLACK := by
      cases hc : f.color
      · exact absurd hc hfc
      · rfl
    have hscb : sc = Color.BLACK := isRed_node_false _ _ _ _ hsibr
    subst hscb
    obtain ⟨m, hm, hbsl, hbsr⟩ := bhv_black_children _ _ _ _ hsibb
    have hme : m = n := by omega
    rw [hme] at hbsl hbsr
    rw [noRedRed_node_iff] at hsibn
    obtain ⟨-, hnsl, hnsr⟩ := hsibn
    rw [sidesOKB_cons] at hsides
    have hunf : blackSiblingDB rest f (Tree.node sl Color.BLACK sd sr) focus =
        solveDB rest (plugF (Frame.mk f.side f.color f.data
          (Tree.node sl Color.RED sd sr)) focus) := by
      rw [blackSiblingDB]
      rw [if_pos ⟨hbl, hbr⟩, if_neg hfc]
    rw [hunf]
    have hsibred : bhv (Tree.node sl Color.RED sd sr) = some n := by
      simp [bhv, hbsl, hbsr]
    have hbP : bhv (plugF (Frame.mk f.side f.color f.data
        (Tree.node sl Color.RED sd sr)) focus) = some (n + 1) := by
      have := bhv_plugF (Frame.mk f.side f.color f.data
        (Tree.node sl Color.RED sd sr)) focus n hb hsibred
      simpa [hfcb] using this
    have hredP : isRed (plugF (Frame.mk f.side f.color f.data
        (Tree.node sl Color.RED sd sr)) focus) = false := by
      rw [isRed_false_iff, tColor_plugF]
      exact hfcb
    have hnrrP : noRedRed (plugF (Frame.mk f.side f.color f.data
        (Tree.node sl Color.RED sd sr)) focus) = true := by
      rw [noRR_plugF_iff]
      refine ⟨fun h => absurd h (by simp [hfcb]), hnrr, ?_⟩
      rw [noRedRed_node_iff]
      exact ⟨fun _ => ⟨hbl, hbr⟩, hnsl, hnsr⟩
    have hfits' : ctxFitsB rest (n + 1 + 1) = true := by
      rw [hfcb] at hfits
      simpa using hfits
    have hctx' : noRRctxB rest Color.BLACK = true := by
      rw [hfcb] at hctx
      exact hctx
    obtain ⟨c1, c2, c3, c4⟩ := ih n.succ hsides.2 hbP hredP hnrrP (by simpa using hfits')
      hctx'
    refine ⟨c1, c2, ?_, ?_⟩
    · rw [c3]
      rw [inorder_plug, inorder_plug, inorder_plugF, inorder_plugF]
      simp [inorder]
    · intro hlast
      rw [hfcb] at hlast
      exact c4 hlast
  | case8 rest f focus sl sc sd sr hnb =>
    intro n hsides hb hred hnrr hsibb hsibr hsibn hfits hctx
    have hscb : sc = Color.BLACK := isRed_node_false _ _ _ _ hsibr
    subst hscb
    obtain ⟨m, hm, hbsl, hbsr⟩ := bhv_black_children _ _ _ _ hsibb
    have hme : m = n := by omega
    rw [hme] at hbsl hbsr
    rw [noRedRed_node_iff] at hsibn
    obtain ⟨-, hnsl, hnsr⟩ := hsibn
    rw [sidesOKB_cons] at hsides
    obtain ⟨hfs, hsrest⟩ := hsides
    have hunf0 : blackSiblingDB rest f (Tree.node sl Color.BLACK sd sr) focus =
        closeFar rest f (Tree.node sl Color.BLACK sd sr) focus := by
      rw [blackSiblingDB, if_neg hnb]
    rw [hunf0]
    have key : ∀ R : Tree,
        closeFar rest f (Tree.node sl Color.BLACK sd sr) focus = plug rest R →
        bhv R = some (n + 1 + (if f.color = Color.BLACK then 1 else 0)) →
        noRedRed R = true → tColor R = f.color →
        inorder R = inorder (plugF (Frame.mk f.side f.color f.data
          (Tree.node sl Color.BLACK sd sr)) focus) →
        (noRedRed (closeFar rest f (Tree.node sl Color.BLACK sd sr) focus) = true ∧
          (bhv (closeFar rest f (Tree.node sl Color.BLACK sd sr) focus)).isSome = true ∧
          inorder (closeFar rest f (Tree.node sl Color.BLACK sd sr) focus) =
            inorder (plug rest (plugF (Frame.mk f.side f.color f.data
              (Tree.node sl Color.BLACK sd sr)) focus)) ∧
          (lastColor rest f.color = Color.BLACK →
            isRed (closeFar rest f (Tree.node sl Color.BLACK sd sr) focus) = false)) := by
      intro R hR hbR hnR htR hiR
      rw [hR]
      refine ⟨?_, ?_, ?_, ?_⟩
      · rw [noRR_plug_iff]
        exact ⟨hnR, htR ▸ hctx⟩
      · rw [bhv_plug_val rest R _ hbR hfits]
        rfl
      · rw [inorder_plug, inorder_plug, hiR]
      · intro hlast
        rw [isRed_false_iff, tColor_plug, htR]
        exact hlast
    rcases hfs with hL | hRr
    · by_cases hcl : isRed sl = true
      · cases sl with
        | nil => simp [isRed] at hcl
        | node sla slc sld slr =>
          have hslc : slc = Color.RED := by
            cases slc
            · rfl
            · simp [isRed] at hcl
          subst hslc
          obtain ⟨hbsla, hbslr⟩ := bhv_red_children _ _ _ _ hbsl
          rw [noRedRed_node_iff] at hnsl
          obtain ⟨hchl, hnsla, hnslr⟩ := hnsl
          obtain ⟨hrsla, hrslr⟩ := hchl rfl
          have he1 : isRed (Tree.node sla Color.RED sld slr) = true := rfl
          have he2 : isRed (Tree.node slr Color.RED sd sr) = true := rfl
          refine key (Tree.node (Tree.node focus Color.BLACK f.data sla) f.color sld
            (Tree.node slr Color.BLACK sd sr)) ?_ ?_ ?_ ?_ ?_
          · simp [closeFar, closeRedNephewDB, farRedNephewDB, rotate, setColor,
              hL, LEFT, RIGHT, he1, he2]
          · simp [bhv, hb, hbsla, hbslr, hbsr]
          · simp [noRedRed, isRed, hnrr, hnsla, hnslr, hnsr, hred, hrslr, hrsla]
          · rfl
          · simp [plugF, hL, inorder]
      · rw [Bool.not_eq_true] at hcl
        have hfar : isRed sr = true := by
          cases hir : isRed sr
          · exact absurd ⟨hcl, hir⟩ hnb
          · rfl
        cases sr with
        | nil => simp [isRed] at hfar
        | node srl src srd srr =>
          have hsrc : src = Color.RED := by
            cases src
            · rfl
            · simp [isRed] at hfar
          subst hsrc
          obtain ⟨hbsrl, hbsrr⟩ := bhv_red_children _ _ _ _ hbsr
          rw [noRedRed_node_iff] at hnsr
          obtain ⟨hchr, hnsrl, hnsrr⟩ := hnsr
          obtain ⟨hrsrl, hrsrr⟩ := hchr rfl
          have he1 : isRed (Tree.node srl Color.RED srd srr) = true := rfl
          refine key (Tree.node (Tree.node focus Color.BLACK f.data sl) f.color sd
            (Tree.node srl Color.BLACK srd srr)) ?_ ?_ ?_ ?_ ?_
          · simp [closeFar, closeRedNephewDB, farRedNephewDB, rotate, setColor,
              hL, LEFT, RIGHT, hcl, he1]
          · simp [bhv, hb, hbsl, hbsrl, hbsrr]
          · simp [noRedRed, isRed, hnrr, hnsl, hnsrl, hnsrr, hred, hcl, hrsrl, hrsrr]
          · rfl
          · simp [plugF, hL, inorder]
    · by_cases hcl : isRed sr = true
      · cases sr with
        | nil => simp [isRed] at hcl
        | node srl src srd srr =>
          have hsrc : src = Color.RED := by
            cases src
            · rfl
            · simp [isRed] at hcl
          subst hsrc
          obtain ⟨hbsrl, hbsrr⟩ := bhv_red_children _ _ _ _ hbsr
          rw [noRedRed_node_iff] at hnsr
          obtain ⟨hchr, hnsrl, hnsrr⟩ := hnsr
          obtain ⟨hrsrl, hrsrr⟩ := hchr rfl
          have he1 : isRed (Tree.node srl Color.RED srd srr) = true := rfl
          have he2 : isRed (Tree.node sl Color.RED sd srl) = true := rfl
          refine key (Tree.node (Tree.node sl Color.BLACK sd srl) f.color srd
            (Tree.node srr Color.BLACK f.data focus)) ?_ ?_ ?_ ?_ ?_
          · simp [closeFar, closeRedNephewDB, farRedNephewDB, rotate, setColor,
              hRr, LEFT, RIGHT, he1, he2, hrsrr]
          · simp [bhv, hb, hbsl, hbsrl, hbsrr]
          · simp [noRedRed, isRed, hnrr, hnsl, hnsrl, hnsrr, hred, hrsrl, hrsrr]
          · rfl
          · simp [plugF, hRr, LEFT, RIGHT, inorder]
      · rw [Bool.not_eq_true] at hcl
        have hfar : isRed sl = true := by
          cases hir : isRed sl
          · exact absurd ⟨hir, hcl⟩ hnb
          · rfl
        cases sl with
        | nil => simp [isRed] at hfar
        | node sla slc sld slr =>
          have hslc : slc = Color.RED := by
            cases slc
            · rfl
            · simp [isRed] at hfar
          subst hslc
          obtain ⟨hbsla, hbslr⟩ := bhv_red_children _ _ _ _ hbsl
          rw [noRedRed_node_iff] at hnsl
          obtain ⟨hchl, hnsla, hnslr⟩ := hnsl
          obtain ⟨hrsla, hrslr⟩ := hchl rfl
          have he1 : isRed (Tree.node sla Color.RED sld slr) = true := rfl
          refine key (Tree.node (Tree.node sla Color.BLACK sld slr) f.color sd
            (Tree.node sr Color.BLACK f.data focus)) ?_ ?_ ?_ ?_ ?_
          · simp [closeFar, closeRedNephewDB, farRedNephewDB, rotate, setColor,
              hRr, LEFT, RIGHT, hcl, he1]
          · simp [bhv, hb, hbsla, hbslr, hbsr]
          · simp [noRedRed, isRed, hnrr, hnsla, hnslr, hnsr, hred, hcl, hrsla, hrslr]
          · rfl
          · simp [plugF, hRr, LEFT, RIGHT, inorder]



theorem findNodeCtx_plug (comp : Int → Int → Int) (e : Int) :
    ∀ (t : Tree) (acc ctx : List Frame) (focus : Tree),
      findNodeCtx comp e t acc = some (ctx, focus) → plug ctx focus = plug acc t := by
  intro t
  induction t with
  | nil => intro acc ctx focus h; simp [findNodeCtx] at h
  | node l c d r ihl ihr =>
    intro acc ctx focus h
    simp only [findNodeCtx] at h
    split_ifs at h with h0 h1
    · simp only [Option.some.injEq, Prod.mk.injEq] at h
      rw [← h.1, ← h.2]
    · have := ihl _ _ _ h
      rw [this]
      simp [plug, plugF, LEFT]
    · have := ihr _ _ _ h
      rw [this]
      simp [plug, plugF, LEFT, RIGHT]

theorem findNodeCtx_sides (comp : Int → Int → Int) (e : Int) :
    ∀ (t : Tree) (acc ctx : List Frame) (focus : Tree), sidesOKB acc = true →
      findNodeCtx comp e t acc = some (ctx, focus) → sidesOKB ctx = true := by
  intro t
  induction t with
  | nil => intro acc ctx focus _ h; simp [findNodeCtx] at h
  | node l c d r ihl ihr =>
    intro acc ctx focus hacc h
    simp only [findNodeCtx] at h
    split_ifs at h with h0 h1
    · simp only [Option.some.injEq, Prod.mk.injEq] at h
      rw [← h.1]
      exact hacc
    · exact ihl _ _ _ (by rw [sidesOKB_cons]; exact ⟨Or.inl rfl, hacc⟩) h
    · exact ihr _ _ _ (by rw [sidesOKB_cons]; exact ⟨Or.inr rfl, hacc⟩) h

theorem findSuccessorCtx_plug :
    ∀ (t : Tree) (acc ext : List Frame) (suc : Tree),
      findSuccessorCtx t acc = (ext, suc) → plug ext suc = plug acc t := by
  intro t
  induction t with
  | nil =>
    intro acc ext suc h
    simp only [findSuccessorCtx, Prod.mk.injEq] at h
    rw [← h.1, ← h.2]
  | node l c d r ihl ihr =>
    intro acc ext suc h
    simp only [findSuccessorCtx] at h
    split_ifs at h with h0
    · simp only [Prod.mk.injEq] at h
      rw [← h.1, ← h.2]
    · have := ihl _ _ _ h
      rw [this]
      simp [plug, plugF, LEFT]

theorem findSuccessorCtx_left_frames :
    ∀ (t : Tree) (acc ext : List Frame) (suc : Tree), (∀ f ∈ acc, f.side = LEFT) →
      findSuccessorCtx t acc = (ext, suc) → ∀ f ∈ ext, f.side = LEFT := by
  intro t
  induction t with
  | nil =>
    intro acc ext suc hacc h
    simp only [findSuccessorCtx, Prod.mk.injEq] at h
    rw [← h.1]
    exact hacc
  | node l c d r ihl ihr =>
    intro acc ext suc hacc h
    simp only [findSuccessorCtx] at h
    split_ifs at h with h0
    · simp only [Prod.mk.injEq] at h
      rw [← h.1]
      exact hacc
    · refine ihl _ _ _ ?_ h
      intro f hf
      rcases List.mem_cons.1 hf with rfl | hf
      · rfl
      · exact hacc f hf

theorem findSuccessorCtx_shape :
    ∀ (t : Tree) (acc ext : List Frame) (suc : Tree), t ≠ Tree.nil →
      findSuccessorCtx t acc = (ext, suc) →
      ∃ cs ds sr, suc = Tree.node Tree.nil cs ds sr := by
  intro t
  induction t with
  | nil => intro acc ext suc h; exact absurd rfl h
  | node l c d r ihl ihr =>
    intro acc ext suc _ h
    simp only [findSuccessorCtx] at h
    split_ifs at h with h0
    · simp only [Prod.mk.injEq] at h
      exact ⟨c, d, r, by rw [← h.2, h0]⟩
    · exact ihl _ _ _ (by simpa using h0) h

theorem ctxL_left_nil : ∀ (ext : List Frame), (∀ f ∈ ext, f.side = LEFT) → ctxL ext = [] := by
  intro ext h
  induction ext with
  | nil => rfl
  | cons f fs ih =>
    rw [ctxL, if_pos (h f (List.mem_cons_self f fs))]
    exact ih fun g hg => h g (List.mem_cons_of_mem f hg)

theorem sidesOKB_append (a b : List Frame) :
    sidesOKB (a ++ b) = (sidesOKB a && sidesOKB b) := by
  simp [sidesOKB, List.all_append]

theorem nil_of_bhv_zero (x : Tree) (hb : bhv x = some 0) (hr : isRed x = false) :
    x = Tree.nil := by
  cases x with
  | nil => rfl
  | node l c d r =>
    have hc : c = Color.BLACK := isRed_node_false _ _ _ _ hr
    subst hc
    obtain ⟨n, hn, -, -⟩ := bhv_black_children _ _ _ _ hb
    omega

theorem shape_of_bhv_zero (x : Tree) (hb : bhv x = some 0) (hn : noRedRed x = true) :
    x = Tree.nil ∨ ∃ xd, x = Tree.node Tree.nil Color.RED xd Tree.nil := by
  cases x with
  | nil => exact Or.inl rfl
  | node l c d r =>
    cases c with
    | BLACK =>
      obtain ⟨n, hn', -, -⟩ := bhv_black_children _ _ _ _ hb
      omega
    | RED =>
      obtain ⟨hbl, hbr⟩ := bhv_red_children _ _ _ _ hb
      rw [noRedRed_node_iff] at hn
      obtain ⟨hch, -, -⟩ := hn
      obtain ⟨hrl, hrr⟩ := hch rfl
      rw [nil_of_bhv_zero l hbl hrl, nil_of_bhv_zero r hbr hrr]
      exact Or.inr ⟨d, rfl⟩

set_option maxHeartbeats 1000000 in
/-- Splicing out the found node (after the pre-deletion swap) and rebalancing
restores the red-black invariants and removes exactly the node's key from the
inorder sequence. -/
theorem place_balance_spec (ctx : List Frame) (l r : Tree) (c : Color) (d : Int) (m : Nat)
    (hsides : sidesOKB ctx = true)
    (hbf : bhv (Tree.node l c d r) = some m)
    (hnf : noRedRed (Tree.node l c d r) = true)
    (hfits : ctxFitsB ctx m = true)
    (hctx : noRRctxB ctx (tColor (Tree.node l c d r)) = true)
    (hlast : lastColor ctx (tColor (Tree.node l c d r)) = Color.BLACK) :
    noRedRed (balanceTree (placeBeforeDeletion ctx (Tree.node l c d r)).1
        (placeBeforeDeletion ctx (Tree.node l c d r)).2) = true ∧
      (bhv (balanceTree (placeBeforeDeletion ctx (Tree.node l c d r)).1
        (placeBeforeDeletion ctx (Tree.node l c d r)).2)).isSome = true ∧
      isRed (balanceTree (placeBeforeDeletion ctx (Tree.node l c d r)).1
        (placeBeforeDeletion ctx (Tree.node l c d r)).2) = false ∧
      inorder (balanceTree (placeBeforeDeletion ctx (Tree.node l c d r)).1
        (placeBeforeDeletion ctx (Tree.node l c d r)).2) =
        ctxL ctx ++ inorder l ++ inorder r ++ ctxR ctx := by
  rw [noRedRed_node_iff] at hnf
  obtain ⟨hcc, hnl, hnr⟩ := hnf
  obtain ⟨k, hbl, hbr, hmk⟩ := bhv_node_elim _ _ _ _ _ hbf
  cases l with
  | nil =>
    cases r with
    | nil =>
      -- leaf: no pre-deletion placement
      have hpl : placeBeforeDeletion ctx (Tree.node Tree.nil c d Tree.nil) =
          (ctx, Tree.node Tree.nil c d Tree.nil) := by
        simp [placeBeforeDeletion, getSingleChild]
      rw [hpl]
      have hk0 : k = 0 := by
        simp [bhv] at hbl
        omega
      cases c with
      | RED =>
        have hm0 : m = 0 := by rw [hmk, hk0]; simp
        have hT : balanceTree ctx (Tree.node Tree.nil Color.RED d Tree.nil) =
            plug ctx Tree.nil := by
          rw [balanceTree]
          rw [if_pos rfl]
        rw [hT]
        have hctxB : noRRctxB ctx Color.BLACK = true :=
          noRRctxB_red_to_black ctx (by simpa [tColor] using hctx)
        refine ⟨?_, ?_, ?_, ?_⟩
        · rw [noRR_plug_iff]
          exact ⟨rfl, by simpa [tColor] using hctxB⟩
        · rw [bhv_plug_val ctx Tree.nil 0 rfl (by rw [← hm0]; exact hfits)]
          rfl
        · rw [isRed_false_iff, tColor_plug]
          simp only [tColor]
          cases hc : ctx with
          | nil =>
            rw [hc] at hlast
            simp [lastColor, tColor] at hlast
          | cons a as =>
            rw [← hc, lastColor_const ctx Color.BLACK Color.RED (by rw [hc]; simp)]
            simpa [tColor] using hlast
        · rw [inorder_plug]
          simp [inorder]
      | BLACK =>
        have hm1 : m = 1 := by rw [hmk, hk0]; simp
        have hT : balanceTree ctx (Tree.node Tree.nil Color.BLACK d Tree.nil) =
            solveDB ctx Tree.nil := by
          rw [balanceTree]
          rw [if_neg (by simp), getSingleChild]
          simp
        rw [hT]
        obtain ⟨c1, c2, c3, c4⟩ := solveDB_spec ctx Tree.nil 0 hsides rfl rfl rfl
          (by rw [show (0 + 1 : Nat) = m from by omega]; exact hfits)
          (by simpa [tColor] using hctx)
        refine ⟨c1, c2, c4 (by simpa [tColor] using hlast), ?_⟩
        · rw [c3, inorder_plug]
          simp [inorder]
    | node rl rc rd rr =>
      -- single right child: must be a red leaf, parent BLACK
      have hk0 : k = 0 := by
        simp [bhv] at hbl
        omega
      rw [hk0] at hbr
      rcases shape_of_bhv_zero _ hbr hnr with heq | ⟨rd', heq⟩
      · exact absurd heq (by simp)
      injection heq with e1 e2 e3 e4
      subst e1
      subst e2
      subst e3
      subst e4
      have hcb : c = Color.BLACK := by
        cases c
        · have := (hcc rfl).2
          simp [isRed] at this
        · rfl
      subst hcb
      have hm1 : m = 1 := by rw [hmk, hk0]; simp
      have hpl : placeBeforeDeletion ctx
          (Tree.node Tree.nil Color.BLACK d (Tree.node Tree.nil Color.RED rd Tree.nil)) =
          (Frame.mk RIGHT Color.BLACK rd Tree.nil :: ctx,
            Tree.node Tree.nil Color.RED d Tree.nil) := by
        simp [placeBeforeDeletion, getSingleChild]
      rw [hpl]
      have hT : balanceTree (Frame.mk RIGHT Color.BLACK rd Tree.nil :: ctx)
          (Tree.node Tree.nil Color.RED d Tree.nil) =
          plug (Frame.mk RIGHT Color.BLACK rd Tree.nil :: ctx) Tree.nil := by
        rw [balanceTree]
        rw [if_pos rfl]
      rw [hT]
      simp only [tColor] at hctx hlast
      refine ⟨?_, ?_, ?_, ?_⟩
      · rw [noRR_plug_iff]
        refine ⟨rfl, ?_⟩
        simp [noRRctxB, noRedRed, tColor, hctx]
      · rw [bhv_plug_val _ Tree.nil 0 rfl ?_]
        · rfl
        · simp only [ctxFitsB]
          simp [bhv, hm1 ▸ hfits]
      · rw [isRed_false_iff, tColor_plug]
        simp only [tColor, lastColor]
        exact hlast
      · rw [inorder_plug]
        simp [ctxL, ctxR, inorder, LEFT, RIGHT]
  | node ll lc ld lr =>
    cases r with
    | nil =>
      -- single left child: must be a red leaf, parent BLACK
      have hk0 : k = 0 := by
        simp [bhv] at hbr
        omega
      rw [hk0] at hbl
      rcases shape_of_bhv_zero _ hbl hnl with heq | ⟨ld', heq⟩
      · exact absurd heq (by simp)
      injection heq with e1 e2 e3 e4
      subst e1
      subst e2
      subst e3
      subst e4
      have hcb : c = Color.BLACK := by
        cases c
        · have := (hcc rfl).1
          simp [isRed] at this
        · rfl
      subst hcb
      have hm1 : m = 1 := by rw [hmk, hk0]; simp
      have hpl : placeBeforeDeletion ctx
          (Tree.node (Tree.node Tree.nil Color.RED ld Tree.nil) Color.BLACK d Tree.nil) =
          (Frame.mk LEFT Color.BLACK ld Tree.nil :: ctx,
            Tree.node Tree.nil Color.RED d Tree.nil) := by
        simp [placeBeforeDeletion, getSingleChild]
      rw [hpl]
      have hT : balanceTree (Frame.mk LEFT Color.BLACK ld Tree.nil :: ctx)
          (Tree.node Tree.nil Color.RED d Tree.nil) =
          plug (Frame.mk LEFT Color.BLACK ld Tree.nil :: ctx) Tree.nil := by
        rw [balanceTree]
        rw [if_pos rfl]
      rw [hT]
      simp only [tColor] at hctx hlast
      refine ⟨?_, ?_, ?_, ?_⟩
      · rw [noRR_plug_iff]
        refine ⟨rfl, ?_⟩
        simp [noRRctxB, noRedRed, tColor, hctx]
      · rw [bhv_plug_val _ Tree.nil 0 rfl ?_]
        · rfl
        · simp only [ctxFitsB]
          simp [bhv, hm1 ▸ hfits]
      · rw [isRed_false_iff, tColor_plug]
        simp only [tColor, lastColor]
        exact hlast
      · rw [inorder_plug]
        simp [ctxL, ctxR, inorder, LEFT, RIGHT]
    | node rl rc rd rr =>
      rcases hfs : findSuccessorCtx (Tree.node rl rc rd rr) [] with ⟨ext, suc⟩
      obtain ⟨cs, ds, sr, hshape⟩ := findSuccessorCtx_shape _ [] ext suc (by simp) hfs
      subst hshape
      have hplug : plug ext (Tree.node Tree.nil cs ds sr) = Tree.node rl rc rd rr :=
        findSuccessorCtx_plug _ [] ext _ hfs
      have hleft : ∀ f ∈ ext, f.side = LEFT :=
        findSuccessorCtx_left_frames _ [] ext _ (by simp) hfs
      have hSext : sidesOKB ext = true := by
        rw [sidesOKB, List.all_eq_true]
        intro f hf
        rw [hleft f hf]
        simp
      have hbr' := hbr
      rw [← hplug] at hbr'
      obtain ⟨ms, hbsuc, hfitsExt⟩ := bhv_plug_decompose ext _ k hbr'
      have hkval : k = ms + ctxW ext := by
        have h2 := bhv_plug_val ext _ ms hbsuc hfitsExt
        rw [hplug, hbr] at h2
        simpa using h2
      have hnr' := hnr
      rw [← hplug, noRR_plug_iff] at hnr'
      obtain ⟨hnsuc, hctxExt⟩ := hnr'
      obtain ⟨ks, hbnil, hbsr, hmssum⟩ := bhv_node_elim _ _ _ _ _ hbsuc
      have hks0 : ks = 0 := by
        simp [bhv] at hbnil
        omega
      rw [hks0] at hbsr hmssum
      rw [noRedRed_node_iff] at hnsuc
      obtain ⟨hcsuc, -, hnsr⟩ := hnsuc
      have htr : lastColor ext (tColor (Tree.node Tree.nil cs ds sr)) =
          tColor (Tree.node rl rc rd rr) := by
        have h2 := tColor_plug ext (Tree.node Tree.nil cs ds sr)
        rw [hplug] at h2
        exact h2.symm
      have hLB : c = Color.RED → lastColor ext Color.BLACK = Color.BLACK := by
        intro hcr
        have hred_r : isRed (Tree.node rl rc rd rr) = false := (hcc hcr).2
        have htrB : tColor (Tree.node rl rc rd rr) = Color.BLACK :=
          (isRed_false_iff _).1 hred_r
        cases he : ext with
        | nil => rfl
        | cons a as =>
          rw [← he, lastColor_const ext Color.BLACK (tColor (Tree.node Tree.nil cs ds sr))
            (by rw [he]; simp)]
          rw [htr, htrB]
      have hfTopChain : noRRctxB (Frame.mk RIGHT c ds (Tree.node ll lc ld lr) :: ctx)
          (lastColor ext Color.BLACK) = true := by
        simp only [noRRctxB, Bool.and_eq_true]
        refine ⟨⟨?_, hnl⟩, by simpa [tColor] using hctx⟩
        cases hcr : c with
        | RED =>
          rw [if_pos rfl, Bool.and_eq_true]
          constructor
          · simp [hLB hcr]
          · have := (hcc hcr).1
            simp [this]
        | BLACK => simp
      have hSctx : sidesOKB (ext ++ Frame.mk RIGHT c ds (Tree.node ll lc ld lr) :: ctx)
          = true := by
        rw [sidesOKB_append, Bool.and_eq_true, sidesOKB_cons]
        exact ⟨hSext, Or.inr rfl, hsides⟩
      have hpl : placeBeforeDeletion ctx (Tree.node (Tree.node ll lc ld lr) c d
          (Tree.node rl rc rd rr)) =
          (ext ++ Frame.mk RIGHT c ds (Tree.node ll lc ld lr) :: ctx,
            Tree.node Tree.nil cs d sr) := by
        simp [placeBeforeDeletion, getSingleChild, hfs]
      rw [hpl]
      have hInorderR : inorder (Tree.node rl rc rd rr) =
          ds :: inorder sr ++ ctxR ext := by
        rw [← hplug, inorder_plug, ctxL_left_nil ext hleft]
        simp [inorder]
      cases cs with
      | RED =>
        have hsrnil : sr = Tree.nil := nil_of_bhv_zero sr hbsr ((isRed_false_iff _).2
          (by cases hsr0 : tColor sr with
              | BLACK => rfl
              | RED => exact absurd ((isRed_true_iff sr).2 hsr0) (by simp [hcsuc rfl])))
        subst hsrnil
        have hms0 : ms = 0 := by simpa using hmssum
        have hT : balanceTree (ext ++ Frame.mk RIGHT c ds (Tree.node ll lc ld lr) :: ctx)
            (Tree.node Tree.nil Color.RED d Tree.nil) =
            plug (ext ++ Frame.mk RIGHT c ds (Tree.node ll lc ld lr) :: ctx) Tree.nil := by
          rw [balanceTree]
          rw [if_pos rfl]
        rw [hT]
        have hfitCtx : ctxFitsB (ext ++ Frame.mk RIGHT c ds (Tree.node ll lc ld lr) :: ctx)
            0 = true := by
          rw [ctxFitsB_append, Bool.and_eq_true]
          refine ⟨by rw [← hms0]; exact hfitsExt, ?_⟩
          simp only [ctxFitsB, Bool.and_eq_true, decide_eq_true_eq]
          refine ⟨by rw [hbl, hkval, hms0], ?_⟩
          rw [show 0 + ctxW ext + (if c = Color.BLACK then 1 else 0) = m from by
            rw [hmk, hkval, hms0]]
          exact hfits
        refine ⟨?_, ?_, ?_, ?_⟩
        · rw [noRR_plug_iff]
          refine ⟨rfl, ?_⟩
          rw [noRRctxB_append, Bool.and_eq_true]
          exact ⟨noRRctxB_red_to_black ext (by simpa [tColor] using hctxExt), hfTopChain⟩
        · rw [bhv_plug_val _ Tree.nil 0 rfl hfitCtx]
          rfl
        · rw [isRed_false_iff, tColor_plug]
          simp only [tColor, lastColor_append, lastColor]
          simpa [tColor] using hlast
        · rw [inorder_plug, ctxL_append, ctxR_append, ctxL_left_nil ext hleft, hInorderR]
          simp [ctxL, ctxR, inorder, LEFT, RIGHT]
      | BLACK =>
        have hms1 : ms = 1 := by simpa using hmssum
        have hfitCtx : ctxFitsB (ext ++ Frame.mk RIGHT c ds (Tree.node ll lc ld lr) :: ctx)
            1 = true := by
          rw [ctxFitsB_append, Bool.and_eq_true]
          refine ⟨by rw [← hms1]; exact hfitsExt, ?_⟩
          simp only [ctxFitsB, Bool.and_eq_true, decide_eq_true_eq]
          refine ⟨by rw [hbl, hkval, hms1], ?_⟩
          rw [show 1 + ctxW ext + (if c = Color.BLACK then 1 else 0) = m from by
            rw [hmk, hkval, hms1]]
          exact hfits
        have hctxCtx : noRRctxB (ext ++ Frame.mk RIGHT c ds (Tree.node ll lc ld lr) :: ctx)
            Color.BLACK = true := by
          rw [noRRctxB_append, Bool.and_eq_true]
          exact ⟨by simpa [tColor] using hctxExt, hfTopChain⟩
        have hlastCtx : lastColor (ext ++ Frame.mk RIGHT c ds (Tree.node ll lc ld lr) :: ctx)
            Color.BLACK = Color.BLACK := by
          rw [lastColor_append]
          simp only [lastColor]
          simpa [tColor] using hlast
        cases hsrc : sr with
        | nil =>
          have hT : balanceTree (ext ++ Frame.mk RIGHT c ds (Tree.node ll lc ld lr) :: ctx)
              (Tree.node Tree.nil Color.BLACK d Tree.nil) =
              solveDB (ext ++ Frame.mk RIGHT c ds (Tree.node ll lc ld lr) :: ctx)
                Tree.nil := by
            rw [balanceTree]
            rw [if_neg (by simp), getSingleChild]
            simp
          rw [hT]
          obtain ⟨c1, c2, c3, c4⟩ := solveDB_spec _ Tree.nil 0 hSctx rfl rfl rfl
            (by simpa using hfitCtx) hctxCtx
          refine ⟨c1, c2, c4 hlastCtx, ?_⟩
          rw [c3, inorder_plug, ctxL_append, ctxR_append, ctxL_left_nil ext hleft,
            hInorderR]
          rw [hsrc]
          simp [ctxL, ctxR, inorder, LEFT, RIGHT]
        | node srl src srd srr =>
          rw [hsrc] at hbsr hnsr
          rcases shape_of_bhv_zero _ hbsr hnsr with heq | ⟨dsr, heq⟩
          · exact absurd heq (by simp)
          injection heq with e1 e2 e3 e4
          subst e1
          subst e2
          subst e3
          subst e4
          have hT : balanceTree (ext ++ Frame.mk RIGHT c ds (Tree.node ll lc ld lr) :: ctx)
              (Tree.node Tree.nil Color.BLACK d
                (Tree.node Tree.nil Color.RED srd Tree.nil)) =
              plug (ext ++ Frame.mk RIGHT c ds (Tree.node ll lc ld lr) :: ctx)
                (Tree.node Tree.nil Color.BLACK srd Tree.nil) := by
            rw [balanceTree]
            rw [if_neg (by simp), getSingleChild]
            simp [isRed, setColor]
          rw [hT]
          refine ⟨?_, ?_, ?_, ?_⟩
          · rw [noRR_plug_iff]
            exact ⟨by simp [noRedRed], by simpa [tColor] using hctxCtx⟩
          · rw [bhv_plug_val _ _ 1 (by simp [bhv]) hfitCtx]
            rfl
          · rw [isRed_false_iff, tColor_plug]
            simp only [tColor]
            exact hlastCtx
          · rw [inorder_plug, ctxL_append, ctxR_append, ctxL_left_nil ext hleft,
              hInorderR]
            rw [hsrc]
            simp [ctxL, ctxR, inorder, LEFT, RIGHT]

set_option maxHeartbeats 1000000 in
/-- When `findNode` succeeds, delete returns SUCCESS, calls the destructor on
exactly the found payload, removes exactly that payload from the inorder
sequence, decrements the size, and preserves all red-black invariants. -/
theorem delete_found_spec (comp : Int → Int → Int) (hs : IsStrictCmp comp)
    (t : RBTree) (e : Int) (hval : rbValid comp t.root = true)
    (hfound : (findNodeCtx comp e t.root []).isSome = true) :
    ∃ x A B t',
      comp e x = 0 ∧
      inorder t.root = A ++ x :: B ∧
      deleteFromRBTree comp t e = (SUCCESS, RBTree.mk t' (t.size - 1), [x]) ∧
      rbValid comp t' = true ∧
      inorder t' = A ++ B := by
  rw [Option.isSome_iff_exists] at hfound
  obtain ⟨⟨ctx, focus⟩, hfind⟩ := hfound
  obtain ⟨l, c, d, r, hfocus, hcomp, hmem⟩ := findNodeCtx_found comp e t.root [] ctx focus hfind
  subst hfocus
  have hplug : plug ctx (Tree.node l c d r) = t.root := by
    have h1 := findNodeCtx_plug comp e t.root [] ctx _ hfind
    simpa [plug] using h1
  have hsides : sidesOKB ctx = true :=
    findNodeCtx_sides comp e t.root [] ctx _ (by rfl) hfind
  simp only [rbValid, Bool.and_eq_true] at hval
  obtain ⟨⟨⟨hroot, hnrr⟩, hbh⟩, hord⟩ := hval
  obtain ⟨M, hbM⟩ := Option.isSome_iff_exists.1 hbh
  rw [← hplug] at hbM
  obtain ⟨m, hbf, hfits⟩ := bhv_plug_decompose ctx _ M hbM
  have hnrr' := hnrr
  rw [← hplug, noRR_plug_iff] at hnrr'
  obtain ⟨hnf, hctx⟩ := hnrr'
  have hrootF : isRed t.root = false := by simpa using hroot
  have hlast : lastColor ctx (tColor (Tree.node l c d r)) = Color.BLACK := by
    have h1 := tColor_plug ctx (Tree.node l c d r)
    rw [hplug] at h1
    rw [← h1]
    exact (isRed_false_iff _).1 hrootF
  obtain ⟨hN, hB, hR, hI⟩ := place_balance_spec ctx l r c d m hsides hbf hnf hfits hctx hlast
  refine ⟨d, ctxL ctx ++ inorder l, inorder r ++ ctxR ctx,
    balanceTree (placeBeforeDeletion ctx (Tree.node l c d r)).1
      (placeBeforeDeletion ctx (Tree.node l c d r)).2, hcomp, ?_, ?_, ?_, ?_⟩
  · rw [← hplug, inorder_plug]
    simp [inorder]
  · simp only [deleteFromRBTree, hfind]
    simp [freeNode, rootData]
  · have hordNew : ordered comp (balanceTree (placeBeforeDeletion ctx (Tree.node l c d r)).1
        (placeBeforeDeletion ctx (Tree.node l c d r)).2) = true := by
      rw [ordered_iff_pairwise comp hs, hI]
      have hpw : (inorder t.root).Pairwise (fun a b => comp a b < 0) :=
        (ordered_iff_pairwise comp hs t.root).1 hord
      rw [← hplug, inorder_plug] at hpw
      have hsub : List.Sublist (ctxL ctx ++ inorder l ++ inorder r ++ ctxR ctx)
          (ctxL ctx ++ inorder (Tree.node l c d r) ++ ctxR ctx) := by
        simp only [inorder, List.append_assoc]
        refine List.Sublist.append (List.Sublist.refl _) ?_
        refine List.Sublist.append (List.Sublist.refl _) ?_
        refine List.Sublist.append ?_ (List.Sublist.refl _)
        exact List.sublist_cons_self d (inorder r)
      exact hpw.sublist (by simpa using hsub)
    rw [rbValid, hN, hB, hR, hordNew]
    rfl
  · rw [hI]
    simp

set_option maxHeartbeats 1000000

theorem updateColors_nil (focus : Tree) :
    updateColors [] focus = setColor focus Color.BLACK := rfl

theorem updateColors_cons_black (f : Frame) (rest : List Frame) (focus : Tree)
    (h : f.color = Color.BLACK) :
    updateColors (f :: rest) focus = plug rest (plugF f (setColor focus Color.RED)) := by
  rw [updateColors.eq_def]
  simp only [if_pos h]

theorem updateColors_single_red (f : Frame) (focus : Tree) (h : ¬f.color = Color.BLACK) :
    updateColors [f] focus = plugF f (setColor focus Color.RED) := by
  rw [updateColors.eq_def]
  simp only [if_neg h]

theorem updateColors_blackUncle (f g : Frame) (rest' : List Frame) (focus : Tree)
    (h1 : ¬f.color = Color.BLACK) (h2 : isRed g.other = false) :
    updateColors (f :: g :: rest') focus = updateColorBlackUncle rest' g f focus := by
  rw [updateColors.eq_def]
  simp only [if_neg h1, if_pos h2]

theorem updateColors_redUncle (f g : Frame) (rest' : List Frame) (focus : Tree)
    (h1 : ¬f.color = Color.BLACK) (h2 : ¬isRed g.other = false) :
    updateColors (f :: g :: rest') focus =
      updateColors rest' (plugF (Frame.mk g.side g.color g.data (setColor g.other Color.BLACK))
        (plugF (Frame.mk f.side Color.BLACK f.data f.other) (setColor focus Color.RED))) := by
  rw [updateColors.eq_def]
  simp only [if_neg h1, if_neg h2]

theorem plugF_left (f : Frame) (t : Tree) (h : f.side = LEFT) :
    plugF f t = Tree.node t f.color f.data f.other := by
  rw [plugF, if_pos h]

theorem plugF_right (f : Frame) (t : Tree) (h : ¬f.side = LEFT) :
    plugF f t = Tree.node f.other f.color f.data t := by
  rw [plugF, if_neg h]

theorem uc_root (fl : Tree) (fc : Color) (fd : Int) (fr : Tree) (n : Nat)
    (hbfl : bhv fl = some n) (hbfr : bhv fr = some n)
    (hnfl : noRedRed fl = true) (hnfr : noRedRed fr = true) :
    noRedRed (updateColors [] (Tree.node fl fc fd fr)) = true ∧
    (bhv (updateColors [] (Tree.node fl fc fd fr))).isSome = true ∧
    isRed (updateColors [] (Tree.node fl fc fd fr)) = false ∧
    inorder (updateColors [] (Tree.node fl fc fd fr)) =
      inorder (plug [] (Tree.node fl fc fd fr)) := by
  rw [updateColors_nil]
  have hsc : setColor (Tree.node fl fc fd fr) Color.BLACK =
      Tree.node fl Color.BLACK fd fr := rfl
  rw [hsc]
  refine ⟨?_, ?_, rfl, ?_⟩
  · rw [noRedRed_node_iff]
    exact ⟨fun h => absurd h (by simp), hnfl, hnfr⟩
  · rw [bhv_node fl Color.BLACK fd fr n hbfl hbfr]
    rfl
  · simp [plug, inorder]

theorem uc_finish (rest' : List Frame) (T S : Tree) (n : Nat)
    (hbT : bhv T = some (n + 1)) (hnT : noRedRed T = true) (hcT : tColor T = Color.BLACK)
    (hfit : ctxFitsB rest' (n + 1) = true) (hcrest : noRRctxB rest' Color.BLACK = true)
    (hlast2 : lastColor rest' Color.BLACK = Color.BLACK)
    (hio : inorder T = inorder S) :
    noRedRed (plug rest' T) = true ∧ (bhv (plug rest' T)).isSome = true ∧
    isRed (plug rest' T) = false ∧ inorder (plug rest' T) = inorder (plug rest' S) := by
  refine ⟨?_, ?_, ?_, ?_⟩
  · rw [noRR_plug_iff]
    exact ⟨hnT, by rw [hcT]; exact hcrest⟩
  · rw [bhv_plug_val rest' T (n + 1) hbT hfit]
    rfl
  · rw [isRed_false_iff, tColor_plug, hcT]
    exact hlast2
  · rw [inorder_plug, inorder_plug, hio]

theorem uc_case_black (f : Frame) (rest : List Frame) (fl : Tree) (fc : Color) (fd : Int)
    (fr : Tree) (n : Nat) (hfc : f.color = Color.BLACK)
    (hbfl : bhv fl = some n) (hbfr : bhv fr = some n)
    (hrfl : isRed fl = false) (hrfr : isRed fr = false)
    (hnfl : noRedRed fl = true) (hnfr : noRedRed fr = true)
    (hfits : ctxFitsB (f :: rest) n = true)
    (hctx : noRRctxB (f :: rest) Color.BLACK = true)
    (hlast : lastColor (f :: rest) Color.BLACK = Color.BLACK) :
    noRedRed (updateColors (f :: rest) (Tree.node fl fc fd fr)) = true ∧
    (bhv (updateColors (f :: rest) (Tree.node fl fc fd fr))).isSome = true ∧
    isRed (updateColors (f :: rest) (Tree.node fl fc fd fr)) = false ∧
    inorder (updateColors (f :: rest) (Tree.node fl fc fd fr)) =
      inorder (plug (f :: rest) (Tree.node fl fc fd fr)) := by
  rw [updateColors_cons_black f rest _ hfc]
  simp only [ctxFitsB, Bool.and_eq_true, decide_eq_true_eq, hfc, if_pos] at hfits
  obtain ⟨hbo, hfrest⟩ := hfits
  simp only [noRRctxB, Bool.and_eq_true, hfc] at hctx
  have hno : noRedRed f.other = true := by
    rcases hctx with ⟨⟨-, h⟩, -⟩
    exact h
  have hcrest : noRRctxB rest Color.BLACK = true := by
    rcases hctx with ⟨-, h⟩
    exact h
  have hsc : setColor (Tree.node fl fc fd fr) Color.RED = Tree.node fl Color.RED fd fr := rfl
  rw [hsc]
  have hbT : bhv (plugF f (Tree.node fl Color.RED fd fr)) = some (n + 1) := by
    have h1 : bhv (Tree.node fl Color.RED fd fr) = some n := by
      simpa using bhv_node fl Color.RED fd fr n hbfl hbfr
    have h2 := bhv_plugF f _ n h1 hbo
    rw [hfc] at h2
    simpa using h2
  have hnT : noRedRed (plugF f (Tree.node fl Color.RED fd fr)) = true := by
    rw [noRR_plugF_iff]
    refine ⟨fun h => absurd (hfc ▸ h) (by simp), ?_, hno⟩
    rw [noRedRed_node_iff]
    exact ⟨fun _ => ⟨hrfl, hrfr⟩, hnfl, hnfr⟩
  exact uc_finish rest (plugF f (Tree.node fl Color.RED fd fr))
    (plugF f (Tree.node fl fc fd fr)) n hbT hnT (by rw [tColor_plugF]; exact hfc)
    hfrest hcrest (by simpa [lastColor, hfc] using hlast)
    (by simp [inorder_plugF, inorder])

theorem noRRctxB_cons_iff (f : Frame) (fs : List Frame) (hc : Color) :
    noRRctxB (f :: fs) hc = true ↔
      ((f.color = Color.RED → hc = Color.BLACK ∧ isRed f.other = false) ∧
        noRedRed f.other = true ∧ noRRctxB fs f.color = true) := by
  cases hfc : f.color <;> simp [noRRctxB, hfc, Bool.not_eq_true'] <;> tauto

theorem ctxFitsB_cons_iff (f : Frame) (fs : List Frame) (n : Nat) :
    ctxFitsB (f :: fs) n = true ↔
      (bhv f.other = some n ∧
        ctxFitsB fs (n + (if f.color = Color.BLACK then 1 else 0)) = true) := by
  simp [ctxFitsB]

theorem updateColors_go (N : Nat) : ∀ (ctx : List Frame) (fl : Tree) (fc : Color) (fd : Int)
    (fr : Tree) (n : Nat), ctx.length ≤ N →
    sidesOKB ctx = true → bhv fl = some n → bhv fr = some n →
    isRed fl = false → isRed fr = false → noRedRed fl = true → noRedRed fr = true →
    ctxFitsB ctx n = true → noRRctxB ctx Color.BLACK = true →
    lastColor ctx Color.BLACK = Color.BLACK →
    noRedRed (updateColors ctx (Tree.node fl fc fd fr)) = true ∧
    (bhv (updateColors ctx (Tree.node fl fc fd fr))).isSome = true ∧
    isRed (updateColors ctx (Tree.node fl fc fd fr)) = false ∧
    inorder (updateColors ctx (Tree.node fl fc fd fr)) =
      inorder (plug ctx (Tree.node fl fc fd fr)) := by
  induction N with
  | zero =>
    intro ctx fl fc fd fr n hlen hsides hbfl hbfr hrfl hrfr hnfl hnfr hfits hctx hlast
    cases ctx with
    | nil => exact uc_root fl fc fd fr n hbfl hbfr hnfl hnfr
    | cons a b => simp at hlen
  | succ N ih =>
    intro ctx fl fc fd fr n hlen hsides hbfl hbfr hrfl hrfr hnfl hnfr hfits hctx hlast
    cases ctx with
    | nil => exact uc_root fl fc fd fr n hbfl hbfr hnfl hnfr
    | cons f rest =>
      by_cases hfc : f.color = Color.BLACK
      · exact uc_case_black f rest fl fc fd fr n hfc hbfl hbfr hrfl hrfr hnfl hnfr
          hfits hctx hlast
      · have hfcR : f.color = Color.RED := by
          cases hc : f.color <;> first | rfl | exact absurd hc hfc
        cases rest with
        | nil => exact absurd (by simpa [lastColor] using hlast) hfc
        | cons g rest' =>
          rw [noRRctxB_cons_iff] at hctx
          obtain ⟨hA, hnfo, hctx2⟩ := hctx
          rw [noRRctxB_cons_iff] at hctx2
          obtain ⟨hB, hngo, hcrest0⟩ := hctx2
          have hrfo : isRed f.other = false := (hA hfcR).2
          have hgB : g.color = Color.BLACK := by
            cases hgc : g.color <;> first | rfl | exact absurd (hB hgc).1 hfc
          have hcrest : noRRctxB rest' Color.BLACK = true := hgB ▸ hcrest0
          rw [ctxFitsB_cons_iff] at hfits
          obtain ⟨hbfo, hfits2⟩ := hfits
          rw [hfcR] at hfits2
          have hfits2' : ctxFitsB (g :: rest') n = true := by simpa using hfits2
          rw [ctxFitsB_cons_iff] at hfits2'
          obtain ⟨hbgo, hfits3⟩ := hfits2'
          have hfrest : ctxFitsB rest' (n + 1) = true := by
            rw [hgB] at hfits3
            simpa using hfits3
          have hlast2 : lastColor rest' Color.BLACK = Color.BLACK := by
            have h := hlast
            simp only [lastColor] at h
            rwa [hgB] at h
          obtain ⟨hfside, hsides2⟩ := (sidesOKB_cons f (g :: rest')).1 hsides
          obtain ⟨hgside, hsides3⟩ := (sidesOKB_cons g rest').1 hsides2
          have hlen' : rest'.length ≤ N := by
            simp only [List.length_cons] at hlen
            omega
          by_cases huncle : isRed g.other = false
          · -- black (or NULL) uncle: one terminal double rotation / recolor
            rw [updateColors_blackUncle f g rest' _ hfc huncle]
            rw [updateColorBlackUncle]
            rcases hfside with hfs | hfs <;> rcases hgside with hgs | hgs
            · -- LEFT / LEFT zig
              rw [if_pos (hfs.trans hgs.symm)]
              have hT : rotate g.side (plugF (Frame.mk g.side Color.RED g.data g.other)
                  (plugF (Frame.mk f.side Color.BLACK f.data f.other)
                    (setColor (Tree.node fl fc fd fr) Color.RED))) =
                  Tree.node (Tree.node fl Color.RED fd fr) Color.BLACK f.data
                    (Tree.node f.other Color.RED g.data g.other) := by
                rw [plugF_left (Frame.mk f.side Color.BLACK f.data f.other) _ hfs,
                  plugF_left (Frame.mk g.side Color.RED g.data g.other) _ hgs, hgs]
                rfl
              rw [hT]
              refine uc_finish rest' _
                (plugF g (plugF f (Tree.node fl fc fd fr))) n ?_ ?_ rfl
                hfrest hcrest hlast2 ?_
              · have h1 : bhv (Tree.node fl Color.RED fd fr) = some n := by
                  simpa using bhv_node fl Color.RED fd fr n hbfl hbfr
                have h2 : bhv (Tree.node f.other Color.RED g.data g.other) = some n := by
                  simpa using bhv_node _ Color.RED _ _ n hbfo hbgo
                simpa using bhv_node _ Color.BLACK f.data _ n h1 h2
              · rw [noRedRed_node_iff]
                refine ⟨fun h => absurd h (by simp), ?_, ?_⟩
                · rw [noRedRed_node_iff]
                  exact ⟨fun _ => ⟨hrfl, hrfr⟩, hnfl, hnfr⟩
                · rw [noRedRed_node_iff]
                  exact ⟨fun _ => ⟨hrfo, huncle⟩, hnfo, hngo⟩
              · rw [plugF_left f _ hfs, plugF_left g _ hgs]
                simp [inorder]
            · -- LEFT / RIGHT zig-zag
              rw [if_neg (by rw [hfs, hgs]; simp [LEFT, RIGHT])]
              have hT : rotate g.side (plugF (Frame.mk g.side Color.RED g.data g.other)
                  (setColor (rotate f.side (plugF f (Tree.node fl fc fd fr)))
                    Color.BLACK)) =
                  Tree.node (Tree.node g.other Color.RED g.data fl) Color.BLACK fd
                    (Tree.node fr Color.RED f.data f.other) := by
                rw [plugF_left f _ hfs, hfs, hfcR]
                rw [plugF_right (Frame.mk g.side Color.RED g.data g.other) _
                  (by rw [hgs]; simp [LEFT, RIGHT])]
                rw [hgs]
                rfl
              rw [hT]
              refine uc_finish rest' _
                (plugF g (plugF f (Tree.node fl fc fd fr))) n ?_ ?_ rfl
                hfrest hcrest hlast2 ?_
              · have h1 : bhv (Tree.node g.other Color.RED g.data fl) = some n := by
                  simpa using bhv_node _ Color.RED _ _ n hbgo hbfl
                have h2 : bhv (Tree.node fr Color.RED f.data f.other) = some n := by
                  simpa using bhv_node _ Color.RED _ _ n hbfr hbfo
                simpa using bhv_node _ Color.BLACK fd _ n h1 h2
              · rw [noRedRed_node_iff]
                refine ⟨fun h => absurd h (by simp), ?_, ?_⟩
                · rw [noRedRed_node_iff]
                  exact ⟨fun _ => ⟨huncle, hrfl⟩, hngo, hnfl⟩
                · rw [noRedRed_node_iff]
                  exact ⟨fun _ => ⟨hrfr, hrfo⟩, hnfr, hnfo⟩
              · rw [plugF_left f _ hfs, plugF_right g _ (by rw [hgs]; simp [LEFT, RIGHT])]
                simp [inorder]
            · -- RIGHT / LEFT zig-zag
              rw [if_neg (by rw [hfs, hgs]; simp [LEFT, RIGHT])]
              have hT : rotate g.side (plugF (Frame.mk g.side Color.RED g.data g.other)
                  (setColor (rotate f.side (plugF f (Tree.node fl fc fd fr)))
                    Color.BLACK)) =
                  Tree.node (Tree.node f.other Color.RED f.data fl) Color.BLACK fd
                    (Tree.node fr Color.RED g.data g.other) := by
                rw [plugF_right f _ (by rw [hfs]; simp [LEFT, RIGHT]), hfs, hfcR]
                rw [plugF_left (Frame.mk g.side Color.RED g.data g.other) _ hgs]
                rw [hgs]
                rfl
              rw [hT]
              refine uc_finish rest' _
                (plugF g (plugF f (Tree.node fl fc fd fr))) n ?_ ?_ rfl
                hfrest hcrest hlast2 ?_
              · have h1 : bhv (Tree.node f.other Color.RED f.data fl) = some n := by
                  simpa using bhv_node _ Color.RED _ _ n hbfo hbfl
                have h2 : bhv (Tree.node fr Color.RED g.data g.other) = some n := by
                  simpa using bhv_node _ Color.RED _ _ n hbfr hbgo
                simpa using bhv_node _ Color.BLACK fd _ n h1 h2
              · rw [noRedRed_node_iff]
                refine ⟨fun h => absurd h (by simp), ?_, ?_⟩
                · rw [noRedRed_node_iff]
                  exact ⟨fun _ => ⟨hrfo, hrfl⟩, hnfo, hnfl⟩
                · rw [noRedRed_node_iff]
                  exact ⟨fun _ => ⟨hrfr, huncle⟩, hnfr, hngo⟩
              · rw [plugF_right f _ (by rw [hfs]; simp [LEFT, RIGHT]), plugF_left g _ hgs]
                simp [inorder]
            · -- RIGHT / RIGHT zig
              rw [if_pos (hfs.trans hgs.symm)]
              have hT : rotate g.side (plugF (Frame.mk g.side Color.RED g.data g.other)
                  (plugF (Frame.mk f.side Color.BLACK f.data f.other)
                    (setColor (Tree.node fl fc fd fr) Color.RED))) =
                  Tree.node (Tree.node g.other Color.RED g.data f.other) Color.BLACK f.data
                    (Tree.node fl Color.RED fd fr) := by
                rw [plugF_right (Frame.mk f.side Color.BLACK f.data f.other) _
                  (by rw [hfs]; simp [LEFT, RIGHT]),
                  plugF_right (Frame.mk g.side Color.RED g.data g.other) _
                  (by rw [hgs]; simp [LEFT, RIGHT]), hgs]
                rfl
              rw [hT]
              refine uc_finish rest' _
                (plugF g (plugF f (Tree.node fl fc fd fr))) n ?_ ?_ rfl
                hfrest hcrest hlast2 ?_
              · have h1 : bhv (Tree.node g.other Color.RED g.data f.other) = some n := by
                  simpa using bhv_node _ Color.RED _ _ n hbgo hbfo
                have h2 : bhv (Tree.node fl Color.RED fd fr) = some n := by
                  simpa using bhv_node fl Color.RED fd fr n hbfl hbfr
                simpa using bhv_node _ Color.BLACK f.data _ n h1 h2
              · rw [noRedRed_node_iff]
                refine ⟨fun h => absurd h (by simp), ?_, ?_⟩
                · rw [noRedRed_node_iff]
                  exact ⟨fun _ => ⟨huncle, hrfo⟩, hngo, hnfo⟩
                · rw [noRedRed_node_iff]
                  exact ⟨fun _ => ⟨hrfl, hrfr⟩, hnfl, hnfr⟩
              · rw [plugF_right f _ (by rw [hfs]; simp [LEFT, RIGHT]),
                  plugF_right g _ (by rw [hgs]; simp [LEFT, RIGHT])]
                simp [inorder]
          · -- red uncle: recolor and recurse on the grandparent
            have huncle' : isRed g.other = true := by
              cases h : isRed g.other
              · exact absurd h huncle
              · rfl
            obtain ⟨ul, ud, ur, hgo⟩ : ∃ ul ud ur, g.other = Tree.node ul Color.RED ud ur := by
              cases hgo : g.other with
              | nil => rw [hgo] at huncle'; simp [isRed] at huncle'
              | node a b cc dd =>
                cases b with
                | RED => exact ⟨a, cc, dd, rfl⟩
                | BLACK => rw [hgo] at huncle'; simp [isRed] at huncle'
            rw [updateColors_redUncle f g rest' _ hfc huncle]
            have h1 : bhv (Tree.node fl Color.RED fd fr) = some n := by
              simpa using bhv_node fl Color.RED fd fr n hbfl hbfr
            have hbX : bhv (plugF (Frame.mk f.side Color.BLACK f.data f.other)
                (Tree.node fl Color.RED fd fr)) = some (n + 1) := by
              simpa using bhv_plugF (Frame.mk f.side Color.BLACK f.data f.other)
                (Tree.node fl Color.RED fd fr) n h1 hbfo
            rw [hgo] at hbgo
            obtain ⟨hbul, hbur⟩ := bhv_red_children _ _ _ _ hbgo
            have hbu : bhv (Tree.node ul Color.BLACK ud ur) = some (n + 1) := by
              simpa using bhv_node ul Color.BLACK ud ur n hbul hbur
            have hrX : isRed (plugF (Frame.mk f.side Color.BLACK f.data f.other)
                (Tree.node fl Color.RED fd fr)) = false := by
              rw [isRed_false_iff, tColor_plugF]
            have hnX : noRedRed (plugF (Frame.mk f.side Color.BLACK f.data f.other)
                (Tree.node fl Color.RED fd fr)) = true := by
              rw [noRR_plugF_iff]
              refine ⟨fun h => absurd h (by simp), ?_, hnfo⟩
              rw [noRedRed_node_iff]
              exact ⟨fun _ => ⟨hrfl, hrfr⟩, hnfl, hnfr⟩
            rw [hgo] at hngo
            have hnu : noRedRed (Tree.node ul Color.BLACK ud ur) = true := by
              have h2 := noRedRed_setColor_black _ hngo
              simpa [setColor] using h2
            rcases hgside with hgs | hgs
            · -- grandparent is a LEFT frame
              have hre : plugF (Frame.mk g.side g.color g.data (setColor g.other Color.BLACK))
                  (plugF (Frame.mk f.side Color.BLACK f.data f.other)
                    (setColor (Tree.node fl fc fd fr) Color.RED)) =
                  Tree.node (plugF (Frame.mk f.side Color.BLACK f.data f.other)
                      (Tree.node fl Color.RED fd fr)) g.color g.data
                    (Tree.node ul Color.BLACK ud ur) := by
                rw [hgo]
                rw [plugF_left (Frame.mk g.side g.color g.data
                  (setColor (Tree.node ul Color.RED ud ur) Color.BLACK)) _ hgs]
                rfl
              rw [hre]
              obtain ⟨ih1, ih2, ih3, ih4⟩ := ih rest' _ g.color g.data _ (n + 1) hlen'
                hsides3 hbX hbu hrX rfl hnX hnu hfrest hcrest hlast2
              refine ⟨ih1, ih2, ih3, ?_⟩
              rw [ih4]
              have hS : inorder (plug (f :: g :: rest') (Tree.node fl fc fd fr)) =
                  inorder (plug rest' (plugF g (plugF f (Tree.node fl fc fd fr)))) := rfl
              rw [hS, inorder_plug, inorder_plug]
              have hmid : inorder (Tree.node (plugF (Frame.mk f.side Color.BLACK f.data
                    f.other) (Tree.node fl Color.RED fd fr)) g.color g.data
                    (Tree.node ul Color.BLACK ud ur)) =
                  inorder (plugF g (plugF f (Tree.node fl fc fd fr))) := by
                simp [inorder, inorder_plugF, hgo, hgs, LEFT, RIGHT]
              rw [hmid]
            · -- grandparent is a RIGHT frame
              have hre : plugF (Frame.mk g.side g.color g.data (setColor g.other Color.BLACK))
                  (plugF (Frame.mk f.side Color.BLACK f.data f.other)
                    (setColor (Tree.node fl fc fd fr) Color.RED)) =
                  Tree.node (Tree.node ul Color.BLACK ud ur) g.color g.data
                    (plugF (Frame.mk f.side Color.BLACK f.data f.other)
                      (Tree.node fl Color.RED fd fr)) := by
                rw [hgo]
                rw [plugF_right (Frame.mk g.side g.color g.data
                  (setColor (Tree.node ul Color.RED ud ur) Color.BLACK)) _
                  (by rw [hgs]; simp [LEFT, RIGHT])]
                rfl
              rw [hre]
              obtain ⟨ih1, ih2, ih3, ih4⟩ := ih rest' _ g.color g.data _ (n + 1) hlen'
                hsides3 hbu hbX rfl hrX hnu hnX hfrest hcrest hlast2
              refine ⟨ih1, ih2, ih3, ?_⟩
              rw [ih4]
              have hS : inorder (plug (f :: g :: rest') (Tree.node fl fc fd fr)) =
                  inorder (plug rest' (plugF g (plugF f (Tree.node fl fc fd fr)))) := rfl
              rw [hS, inorder_plug, inorder_plug]
              have hmid : inorder (Tree.node (Tree.node ul Color.BLACK ud ur) g.color g.data
                    (plugF (Frame.mk f.side Color.BLACK f.data f.other)
                      (Tree.node fl Color.RED fd fr))) =
                  inorder (plugF g (plugF f (Tree.node fl fc fd fr))) := by
                simp [inorder, inorder_plugF, hgo, hgs, LEFT, RIGHT]
              rw [hmid]

theorem insertDescend_plug (comp : Int → Int → Int) (e : Int) :
    ∀ (t : Tree) (acc ctx : List Frame),
      insertDescend comp e t acc = some ctx → plug ctx Tree.nil = plug acc t := by
  intro t
  induction t with
  | nil =>
    intro acc ctx h
    simp only [insertDescend, Option.some.injEq] at h
    rw [← h]
  | node l c d r ihl ihr =>
    intro acc ctx h
    simp only [insertDescend] at h
    split_ifs at h with h0 h1
    · have := ihl _ _ h
      rw [this]
      simp [plug, plugF, LEFT]
    · have := ihr _ _ h
      rw [this]
      simp [plug, plugF, LEFT, RIGHT]

theorem insertDescend_sides (comp : Int → Int → Int) (e : Int) :
    ∀ (t : Tree) (acc ctx : List Frame), sidesOKB acc = true →
      insertDescend comp e t acc = some ctx → sidesOKB ctx = true := by
  intro t
  induction t with
  | nil =>
    intro acc ctx hacc h
    simp only [insertDescend, Option.some.injEq] at h
    rw [← h]
    exact hacc
  | node l c d r ihl ihr =>
    intro acc ctx hacc h
    simp only [insertDescend] at h
    split_ifs at h with h0 h1
    · exact ihl _ _ (by rw [sidesOKB_cons]; exact ⟨Or.inl rfl, hacc⟩) h
    · exact ihr _ _ (by rw [sidesOKB_cons]; exact ⟨Or.inr rfl, hacc⟩) h

theorem insertDescend_holeOK (comp : Int → Int → Int) (e : Int) :
    ∀ (t : Tree) (acc ctx : List Frame), holeOKB comp acc e = true →
      insertDescend comp e t acc = some ctx → holeOKB comp ctx e = true := by
  intro t
  induction t with
  | nil =>
    intro acc ctx hacc h
    simp only [insertDescend, Option.some.injEq] at h
    rw [← h]
    exact hacc
  | node l c d r ihl ihr =>
    intro acc ctx hacc h
    simp only [insertDescend] at h
    split_ifs at h with h0 h1
    · refine ihl _ _ ?_ h
      rw [holeOKB_cons, Bool.and_eq_true]
      refine ⟨?_, hacc⟩
      rw [if_pos (show (Frame.mk LEFT c d r).side = LEFT from rfl)]
      simp only [decide_eq_true_eq]
      simpa [EQUAL] using h1
    · refine ihr _ _ ?_ h
      rw [holeOKB_cons, Bool.and_eq_true]
      refine ⟨?_, hacc⟩
      rw [if_neg (show ¬(Frame.mk RIGHT c d l).side = LEFT by simp [LEFT, RIGHT])]
      simp only [decide_eq_true_eq, gt_iff_lt]
      simp only [EQUAL] at h0 h1
      omega

theorem insertDescend_isSome_of_fresh (comp : Int → Int → Int) (e : Int) :
    ∀ (t : Tree) (acc : List Frame), (∀ x ∈ inorder t, comp e x ≠ 0) →
      (insertDescend comp e t acc).isSome = true := by
  intro t
  induction t with
  | nil => intro acc _; rfl
  | node l c d r ihl ihr =>
    intro acc hfresh
    simp only [insertDescend]
    split_ifs with h0 h1
    · exact absurd (by simpa [EQUAL] using h0) (hfresh d (by simp [inorder]))
    · exact ihl _ fun x hx => hfresh x (by simp [inorder, hx])
    · exact ihr _ fun x hx => hfresh x (by simp [inorder, hx])

theorem insert_ctx_spec (comp : Int → Int → Int) (hs : IsStrictCmp comp) (t : RBTree)
    (e : Int) (ctx : List Frame) (hval : rbValid comp t.root = true)
    (hins : insertNode comp t.root e = some ctx) :
    insertToRBTree comp t e =
      (SUCCESS, RBTree.mk (updateColors ctx (Tree.node Tree.nil Color.BLACK e Tree.nil))
        (t.size + 1), []) ∧
    rbValid comp (updateColors ctx (Tree.node Tree.nil Color.BLACK e Tree.nil)) = true ∧
    inorder (updateColors ctx (Tree.node Tree.nil Color.BLACK e Tree.nil)) =
      orderedInsert comp e (inorder t.root) := by
  have hplug : plug ctx Tree.nil = t.root := by
    have h1 := insertDescend_plug comp e t.root [] ctx hins
    simpa [plug] using h1
  have hsides : sidesOKB ctx = true :=
    insertDescend_sides comp e t.root [] ctx (by rfl) hins
  have hhole : holeOKB comp ctx e = true :=
    insertDescend_holeOK comp e t.root [] ctx (by rfl) hins
  simp only [rbValid, Bool.and_eq_true] at hval
  obtain ⟨⟨⟨hroot, hnrr⟩, hbh⟩, hord⟩ := hval
  obtain ⟨M, hbM⟩ := Option.isSome_iff_exists.1 hbh
  rw [← hplug] at hbM
  obtain ⟨n0, hb0, hfits⟩ := bhv_plug_decompose ctx _ M hbM
  have hn0 : n0 = 0 := by
    simp [bhv] at hb0
    omega
  rw [hn0] at hfits
  have hnrr' := hnrr
  rw [← hplug, noRR_plug_iff] at hnrr'
  obtain ⟨-, hctxB⟩ := hnrr'
  have hrootF : isRed t.root = false := by simpa using hroot
  have hlast : lastColor ctx Color.BLACK = Color.BLACK := by
    have h1 := tColor_plug ctx Tree.nil
    rw [hplug] at h1
    rw [show lastColor ctx Color.BLACK = lastColor ctx (tColor Tree.nil) from rfl, ← h1]
    exact (isRed_false_iff _).1 hrootF
  obtain ⟨hN, hB, hR, hI⟩ := updateColors_go ctx.length ctx Tree.nil Color.BLACK e
    Tree.nil 0 (Nat.le_refl _) hsides rfl rfl rfl rfl rfl rfl hfits
    (by simpa [tColor] using hctxB) hlast
  -- ordering facts
  have hordP : ordered comp (plug ctx Tree.nil) = true := by rw [hplug]; exact hord
  have hctxOrd : ctxOrderedB comp ctx = true := ((ordered_plug_iff comp ctx Tree.nil).1
    hordP).1
  obtain ⟨hboundL, hboundR⟩ := ctx_bounds comp hs ctx e hctxOrd hhole
  have hpwOld : (ctxL ctx ++ ctxR ctx).Pairwise (fun a b => comp a b < 0) := by
    have h1 := (ordered_iff_pairwise comp hs _).1 hordP
    rw [inorder_plug] at h1
    simpa [inorder] using h1
  rw [List.pairwise_append] at hpwOld
  obtain ⟨hpA, hpB, hcross⟩ := hpwOld
  have hpwNew : (ctxL ctx ++ e :: ctxR ctx).Pairwise (fun a b => comp a b < 0) := by
    rw [List.pairwise_append]
    refine ⟨hpA, ?_, ?_⟩
    · rw [List.pairwise_cons]
      exact ⟨hboundR, hpB⟩
    · intro a ha b hb
      rcases List.mem_cons.1 hb with rfl | hb
      · exact hboundL a ha
      · exact hcross a ha b hb
  have hIn : inorder (updateColors ctx (Tree.node Tree.nil Color.BLACK e Tree.nil)) =
      ctxL ctx ++ e :: ctxR ctx := by
    rw [hI, inorder_plug]
    simp [inorder]
  have hOrdIns : orderedInsert comp e (inorder t.root) = ctxL ctx ++ e :: ctxR ctx := by
    rw [← hplug, inorder_plug]
    have h2 : ctxL ctx ++ inorder Tree.nil ++ ctxR ctx = ctxL ctx ++ ctxR ctx := by
      simp [inorder]
    rw [h2]
    exact orderedInsert_append comp hs e _ _ hboundL hboundR
  have hordNew : ordered comp
      (updateColors ctx (Tree.node Tree.nil Color.BLACK e Tree.nil)) = true := by
    rw [ordered_iff_pairwise comp hs, hIn]
    exact hpwNew
  refine ⟨?_, ?_, ?_⟩
  · by_cases hrn : t.root = Tree.nil
    · have hctxnil : ctx = [] := by
        rw [hrn] at hins
        simpa [insertNode, insertDescend] using hins.symm
      subst hctxnil
      rw [insertToRBTree, if_pos hrn]
      rfl
    · rw [insertToRBTree, if_neg hrn]
      simp only [hins]
  · rw [rbValid, hN, hB, hordNew]
    rw [hR]
    rfl
  · rw [hIn, hOrdIns]

theorem memColor_plugF (f : Frame) (t : Tree) (x : Int) (col : Color)
    (h : memColor t x col = true) : memColor (plugF f t) x col = true := by
  by_cases hside : f.side = LEFT <;> simp [plugF, hside, memColor, h]

theorem memColor_plug : ∀ (ctx : List Frame) (t : Tree) (x : Int) (col : Color),
    memColor t x col = true → memColor (plug ctx t) x col = true := by
  intro ctx
  induction ctx with
  | nil => intro t x col h; exact h
  | cons f fs ih => intro t x col h; exact ih _ _ _ (memColor_plugF f t x col h)

theorem updateColors_memColor (N : Nat) : ∀ (ctx : List Frame) (fl : Tree) (fc : Color)
    (fd : Int) (fr : Tree) (x : Int) (col : Color), ctx.length ≤ N →
    sidesOKB ctx = true →
    memColor fl x col = true ∨ memColor fr x col = true →
    memColor (updateColors ctx (Tree.node fl fc fd fr)) x col = true := by
  induction N with
  | zero =>
    intro ctx fl fc fd fr x col hlen hsides h
    cases ctx with
    | nil => rcases h with h | h <;> simp [updateColors_nil, setColor, memColor, h]
    | cons a b => simp at hlen
  | succ N ih =>
    intro ctx fl fc fd fr x col hlen hsides h
    cases ctx with
    | nil => rcases h with h | h <;> simp [updateColors_nil, setColor, memColor, h]
    | cons f rest =>
      have hmemF : memColor (Tree.node fl Color.RED fd fr) x col = true := by
        rcases h with h | h <;> simp [memColor, h]
      by_cases hfc : f.color = Color.BLACK
      · rw [updateColors_cons_black f rest _ hfc]
        exact memColor_plug rest _ x col (memColor_plugF f _ x col hmemF)
      · have hfcR : f.color = Color.RED := by
          cases hc : f.color <;> first | rfl | exact absurd hc hfc
        cases rest with
        | nil =>
          rw [updateColors_single_red f _ hfc]
          exact memColor_plugF f _ x col hmemF
        | cons g rest' =>
          obtain ⟨hfside, hsides2⟩ := (sidesOKB_cons f (g :: rest')).1 hsides
          obtain ⟨hgside, hsides3⟩ := (sidesOKB_cons g rest').1 hsides2
          have hlen' : rest'.length ≤ N := by
            simp only [List.length_cons] at hlen
            omega
          by_cases huncle : isRed g.other = false
          · rw [updateColors_blackUncle f g rest' _ hfc huncle]
            rw [updateColorBlackUncle]
            rcases hfside with hfs | hfs <;> rcases hgside with hgs | hgs
            · rw [if_pos (hfs.trans hgs.symm)]
              have hT : rotate g.side (plugF (Frame.mk g.side Color.RED g.data g.other)
                  (plugF (Frame.mk f.side Color.BLACK f.data f.other)
                    (setColor (Tree.node fl fc fd fr) Color.RED))) =
                  Tree.node (Tree.node fl Color.RED fd fr) Color.BLACK f.data
                    (Tree.node f.other Color.RED g.data g.other) := by
                rw [plugF_left (Frame.mk f.side Color.BLACK f.data f.other) _ hfs,
                  plugF_left (Frame.mk g.side Color.RED g.data g.other) _ hgs, hgs]
                rfl
              rw [hT]
              refine memColor_plug rest' _ x col ?_
              rcases h with h | h <;> simp [memColor, h]
            · rw [if_neg (by rw [hfs, hgs]; simp [LEFT, RIGHT])]
              have hT : rotate g.side (plugF (Frame.mk g.side Color.RED g.data g.other)
                  (setColor (rotate f.side (plugF f (Tree.node fl fc fd fr)))
                    Color.BLACK)) =
                  Tree.node (Tree.node g.other Color.RED g.data fl) Color.BLACK fd
                    (Tree.node fr Color.RED f.data f.other) := by
                rw [plugF_left f _ hfs, hfs, hfcR]
                rw [plugF_right (Frame.mk g.side Color.RED g.data g.other) _
                  (by rw [hgs]; simp [LEFT, RIGHT])]
                rw [hgs]
                rfl
              rw [hT]
              refine memColor_plug rest' _ x col ?_
              rcases h with h | h <;> simp [memColor, h]
            · rw [if_neg (by rw [hfs, hgs]; simp [LEFT, RIGHT])]
              have hT : rotate g.side (plugF (Frame.mk g.side Color.RED g.data g.other)
                  (setColor (rotate f.side (plugF f (Tree.node fl fc fd fr)))
                    Color.BLACK)) =
                  Tree.node (Tree.node f.other Color.RED f.data fl) Color.BLACK fd
                    (Tree.node fr Color.RED g.data g.other) := by
                rw [plugF_right f _ (by rw [hfs]; simp [LEFT, RIGHT]), hfs, hfcR]
                rw [plugF_left (Frame.mk g.side Color.RED g.data g.other) _ hgs]
                rw [hgs]
                rfl
              rw [hT]
              refine memColor_plug rest' _ x col ?_
              rcases h with h | h <;> simp [memColor, h]
            · rw [if_pos (hfs.trans hgs.symm)]
              have hT : rotate g.side (plugF (Frame.mk g.side Color.RED g.data g.other)
                  (plugF (Frame.mk f.side Color.BLACK f.data f.other)
                    (setColor (Tree.node fl fc fd fr) Color.RED))) =
                  Tree.node (Tree.node g.other Color.RED g.data f.other) Color.BLACK f.data
                    (Tree.node fl Color.RED fd fr) := by
                rw [plugF_right (Frame.mk f.side Color.BLACK f.data f.other) _
                  (by rw [hfs]; simp [LEFT, RIGHT]),
                  plugF_right (Frame.mk g.side Color.RED g.data g.other) _
                  (by rw [hgs]; simp [LEFT, RIGHT]), hgs]
                rfl
              rw [hT]
              refine memColor_plug rest' _ x col ?_
              rcases h with h | h <;> simp [memColor, h]
          · rw [updateColors_redUncle f g rest' _ hfc huncle]
            rcases hgside with hgs | hgs
            · have hre : plugF (Frame.mk g.side g.color g.data (setColor g.other Color.BLACK))
                  (plugF (Frame.mk f.side Color.BLACK f.data f.other)
                    (setColor (Tree.node fl fc fd fr) Color.RED)) =
                  Tree.node (plugF (Frame.mk f.side Color.BLACK f.data f.other)
                      (Tree.node fl Color.RED fd fr)) g.color g.data
                    (setColor g.other Color.BLACK) := by
                rw [plugF_left (Frame.mk g.side g.color g.data
                  (setColor g.other Color.BLACK)) _ hgs]
                rfl
              rw [hre]
              exact ih rest' _ g.color g.data _ x col hlen' hsides3
                (Or.inl (memColor_plugF _ _ x col hmemF))
            · have hre : plugF (Frame.mk g.side g.color g.data (setColor g.other Color.BLACK))
                  (plugF (Frame.mk f.side Color.BLACK f.data f.other)
                    (setColor (Tree.node fl fc fd fr) Color.RED)) =
                  Tree.node (setColor g.other Color.BLACK) g.color g.data
                    (plugF (Frame.mk f.side Color.BLACK f.data f.other)
                      (Tree.node fl Color.RED fd fr)) := by
                rw [plugF_right (Frame.mk g.side g.color g.data
                  (setColor g.other Color.BLACK)) _ (by rw [hgs]; simp [LEFT, RIGHT])]
                rfl
              rw [hre]
              exact ih rest' _ g.color g.data _ x col hlen' hsides3
                (Or.inr (memColor_plugF _ _ x col hmemF))

theorem updateColors_newColor (N : Nat) : ∀ (ctx : List Frame) (fc : Color) (e : Int),
    ctx.length ≤ N → sidesOKB ctx = true →
    memColor (updateColors ctx (Tree.node Tree.nil fc e Tree.nil)) e
      (if ctx = [] ∨ zigzagCase ctx = true then Color.BLACK else Color.RED) = true := by
  induction N with
  | zero =>
    intro ctx fc e hlen hsides
    cases ctx with
    | nil => simp [updateColors_nil, setColor, memColor]
    | cons a b => simp at hlen
  | succ N ih =>
    intro ctx fc e hlen hsides
    cases ctx with
    | nil => simp [updateColors_nil, setColor, memColor]
    | cons f rest =>
      have hmemR : memColor (Tree.node Tree.nil Color.RED e Tree.nil) e Color.RED = true := by
        simp [memColor]
      by_cases hfc : f.color = Color.BLACK
      · rw [updateColors_cons_black f rest _ hfc]
        have hzz : zigzagCase (f :: rest) = false := by
          cases rest with
          | nil => rfl
          | cons g r2 => simp [zigzagCase, hfc]
        rw [if_neg (by simp [hzz])]
        exact memColor_plug rest _ e Color.RED (memColor_plugF f _ e Color.RED hmemR)
      · have hfcR : f.color = Color.RED := by
          cases hc : f.color <;> first | rfl | exact absurd hc hfc
        cases rest with
        | nil =>
          rw [updateColors_single_red f _ hfc]
          rw [if_neg (by simp [zigzagCase])]
          exact memColor_plugF f _ e Color.RED hmemR
        | cons g rest' =>
          obtain ⟨hfside, hsides2⟩ := (sidesOKB_cons f (g :: rest')).1 hsides
          obtain ⟨hgside, hsides3⟩ := (sidesOKB_cons g rest').1 hsides2
          have hlen' : rest'.length ≤ N := by
            simp only [List.length_cons] at hlen
            omega
          by_cases huncle : isRed g.other = false
          · rw [updateColors_blackUncle f g rest' _ hfc huncle]
            rw [updateColorBlackUncle]
            rcases hfside with hfs | hfs <;> rcases hgside with hgs | hgs
            · rw [if_pos (hfs.trans hgs.symm)]
              rw [if_neg (by simp [zigzagCase, hfcR, huncle, hfs, hgs])]
              have hT : rotate g.side (plugF (Frame.mk g.side Color.RED g.data g.other)
                  (plugF (Frame.mk f.side Color.BLACK f.data f.other)
                    (setColor (Tree.node Tree.nil fc e Tree.nil) Color.RED))) =
                  Tree.node (Tree.node Tree.nil Color.RED e Tree.nil) Color.BLACK f.data
                    (Tree.node f.other Color.RED g.data g.other) := by
                rw [plugF_left (Frame.mk f.side Color.BLACK f.data f.other) _ hfs,
                  plugF_left (Frame.mk g.side Color.RED g.data g.other) _ hgs, hgs]
                rfl
              rw [hT]
              exact memColor_plug rest' _ e Color.RED (by simp [memColor])
            · rw [if_neg (by rw [hfs, hgs]; simp [LEFT, RIGHT])]
              rw [if_pos (Or.inr (by simp [zigzagCase, hfcR, huncle, hfs, hgs, LEFT, RIGHT]))]
              have hT : rotate g.side (plugF (Frame.mk g.side Color.RED g.data g.other)
                  (setColor (rotate f.side (plugF f (Tree.node Tree.nil fc e Tree.nil)))
                    Color.BLACK)) =
                  Tree.node (Tree.node g.other Color.RED g.data Tree.nil) Color.BLACK e
                    (Tree.node Tree.nil Color.RED f.data f.other) := by
                rw [plugF_left f _ hfs, hfs, hfcR]
                rw [plugF_right (Frame.mk g.side Color.RED g.data g.other) _
                  (by rw [hgs]; simp [LEFT, RIGHT])]
                rw [hgs]
                rfl
              rw [hT]
              exact memColor_plug rest' _ e Color.BLACK (by simp [memColor])
            · rw [if_neg (by rw [hfs, hgs]; simp [LEFT, RIGHT])]
              rw [if_pos (Or.inr (by simp [zigzagCase, hfcR, huncle, hfs, hgs, LEFT, RIGHT]))]
              have hT : rotate g.side (plugF (Frame.mk g.side Color.RED g.data g.other)
                  (setColor (rotate f.side (plugF f (Tree.node Tree.nil fc e Tree.nil)))
                    Color.BLACK)) =
                  Tree.node (Tree.node f.other Color.RED f.data Tree.nil) Color.BLACK e
                    (Tree.node Tree.nil Color.RED g.data g.other) := by
                rw [plugF_right f _ (by rw [hfs]; simp [LEFT, RIGHT]), hfs, hfcR]
                rw [plugF_left (Frame.mk g.side Color.RED g.data g.other) _ hgs]
                rw [hgs]
                rfl
              rw [hT]
              exact memColor_plug rest' _ e Color.BLACK (by simp [memColor])
            · rw [if_pos (hfs.trans hgs.symm)]
              rw [if_neg (by simp [zigzagCase, hfcR, huncle, hfs, hgs])]
              have hT : rotate g.side (plugF (Frame.mk g.side Color.RED g.data g.other)
                  (plugF (Frame.mk f.side Color.BLACK f.data f.other)
                    (setColor (Tree.node Tree.nil fc e Tree.nil) Color.RED))) =
                  Tree.node (Tree.node g.other Color.RED g.data f.other) Color.BLACK f.data
                    (Tree.node Tree.nil Color.RED e Tree.nil) := by
                rw [plugF_right (Frame.mk f.side Color.BLACK f.data f.other) _
                  (by rw [hfs]; simp [LEFT, RIGHT]),
                  plugF_right (Frame.mk g.side Color.RED g.data g.other) _
                  (by rw [hgs]; simp [LEFT, RIGHT]), hgs]
                rfl
              rw [hT]
              exact memColor_plug rest' _ e Color.RED (by simp [memColor])
          · rw [updateColors_redUncle f g rest' _ hfc huncle]
            have huncle' : isRed g.other = true := by
              cases hu : isRed g.other
              · exact absurd hu huncle
              · rfl
            rw [if_neg (by simp [zigzagCase, huncle'])]
            rcases hgside with hgs | hgs
            · have hre : plugF (Frame.mk g.side g.color g.data (setColor g.other Color.BLACK))
                  (plugF (Frame.mk f.side Color.BLACK f.data f.other)
                    (setColor (Tree.node Tree.nil fc e Tree.nil) Color.RED)) =
                  Tree.node (plugF (Frame.mk f.side Color.BLACK f.data f.other)
                      (Tree.node Tree.nil Color.RED e Tree.nil)) g.color g.data
                    (setColor g.other Color.BLACK) := by
                rw [plugF_left (Frame.mk g.side g.color g.data
                  (setColor g.other Color.BLACK)) _ hgs]
                rfl
              rw [hre]
              exact updateColors_memColor N rest' _ g.color g.data _ e Color.RED hlen'
                hsides3 (Or.inl (memColor_plugF _ _ e Color.RED hmemR))
            · have hre : plugF (Frame.mk g.side g.color g.data (setColor g.other Color.BLACK))
                  (plugF (Frame.mk f.side Color.BLACK f.data f.other)
                    (setColor (Tree.node Tree.nil fc e Tree.nil) Color.RED)) =
                  Tree.node (setColor g.other Color.BLACK) g.color g.data
                    (plugF (Frame.mk f.side Color.BLACK f.data f.other)
                      (Tree.node Tree.nil Color.RED e Tree.nil)) := by
                rw [plugF_right (Frame.mk g.side g.color g.data
                  (setColor g.other Color.BLACK)) _ (by rw [hgs]; simp [LEFT, RIGHT])]
                rfl
              rw [hre]
              exact updateColors_memColor N rest' _ g.color g.data _ e Color.RED hlen'
                hsides3 (Or.inr (memColor_plugF _ _ e Color.RED hmemR))

theorem insert_preserves (comp : Int → Int → Int) (hs : IsStrictCmp comp) (t : RBTree)
    (e : Int) (hval : rbValid comp t.root = true) :
    rbValid comp (insertToRBTree comp t e).2.1.root = true ∧
      (insertToRBTree comp t e).2.2 = [] := by
  cases hins : insertNode comp t.root e with
  | none =>
    have hrn : t.root ≠ Tree.nil := by
      intro hr
      rw [hr] at hins
      simp [insertNode, insertDescend] at hins
    simp only [insertToRBTree, if_neg hrn, hins]
    exact ⟨hval, trivial⟩
  | some ctx =>
    obtain ⟨heq, hv, -⟩ := insert_ctx_spec comp hs t e ctx hval hins
    rw [heq]
    exact ⟨hv, rfl⟩

theorem delete_preserves (comp : Int → Int → Int) (hs : IsStrictCmp comp) (t : RBTree)
    (e : Int) (hval : rbValid comp t.root = true) :
    rbValid comp (deleteFromRBTree comp t e).2.1.root = true := by
  cases hf : findNodeCtx comp e t.root [] with
  | none => simpa [deleteFromRBTree, hf] using hval
  | some p =>
    obtain ⟨x, A, B, t', hcx, hio, heq, hv, hio2⟩ := delete_found_spec comp hs t e hval
      (by rw [hf]; rfl)
    rw [heq]
    exact hv

theorem runOps_valid (comp : Int → Int → Int) (hs : IsStrictCmp comp) :
    ∀ (ops : List Op) (st : RBTree × List Int), rbValid comp st.1.root = true →
      rbValid comp (runOps comp ops st).1.root = true := by
  intro ops
  induction ops with
  | nil => intro st h; exact h
  | cons op rest ih =>
    intro st h
    cases op with
    | ins x =>
      simp only [runOps]
      exact ih _ (insert_preserves comp hs st.1 x h).1
    | del x =>
      simp only [runOps]
      exact ih _ (delete_preserves comp hs st.1 x h)

/-- Claim C1: starting from the empty tree, after every public mutation (insert
or delete, successful or not) of any sequence, all five red-black invariants
hold: the root (if present) is BLACK, no RED node has a RED child, every path
from a node to a descendant NULL position crosses the same number of BLACK
nodes, and the in-order positions respect the comparator's strict order. -/
theorem rb_invariants_all_mutations (comp : Int → Int → Int) (hs : IsStrictCmp comp)
    (ops : List Op) :
    rbValid comp (runOps comp ops (newRBTree, [])).1.root = true :=
  runOps_valid comp hs ops (newRBTree, []) (by rfl)

/-- Witness for C1 at a concrete mutation sequence. -/
theorem rb_invariants_all_mutations_witness :
    rbValid intComp (runOps intComp [Op.ins 2, Op.ins 1, Op.ins 3, Op.del 2]
      (newRBTree, [])).1.root = true :=
  rb_invariants_all_mutations intComp intComp_strict
    [Op.ins 2, Op.ins 1, Op.ins 3, Op.del 2]

/-- Counterexample to claim C2: inserting 1, 3 and then 2 into an empty tree,
the new node 2 is not the first node of an empty tree, yet it ends up BLACK
(the zig-zag fix-up promotes it and colors it BLACK), not RED as claimed. -/
theorem insert_new_node_not_red :
    memColor (runOps intComp [Op.ins 1, Op.ins 3, Op.ins 2] (newRBTree, [])).1.root 2
        Color.BLACK = true ∧
      memColor (runOps intComp [Op.ins 1, Op.ins 3, Op.ins 2] (newRBTree, [])).1.root 2
        Color.RED = false := by
  decide

/-- Claim C2 (amended): on a successful insert the new node is placed by
binary-search descent (the resulting in-order sequence is the sorted insertion
of the payload), the count increases by one and SUCCESS is returned; the new
node ends up RED, except when it is the very first node of an empty tree or
when the fix-up's zig-zag case (red parent, black-or-NULL uncle, node and
parent on opposite sides) promotes it, in which two cases it ends up BLACK. -/
theorem insert_placement_color (comp : Int → Int → Int) (hs : IsStrictCmp comp)
    (t : RBTree) (e : Int) (ctx : List Frame) (hval : rbValid comp t.root = true)
    (hins : insertNode comp t.root e = some ctx) :
    insertToRBTree comp t e =
      (SUCCESS, RBTree.mk (updateColors ctx (Tree.node Tree.nil Color.BLACK e Tree.nil))
        (t.size + 1), []) ∧
    inorder (updateColors ctx (Tree.node Tree.nil Color.BLACK e Tree.nil)) =
      orderedInsert comp e (inorder t.root) ∧
    memColor (updateColors ctx (Tree.node Tree.nil Color.BLACK e Tree.nil)) e
      (if ctx = [] ∨ zigzagCase ctx = true then Color.BLACK else Color.RED) = true := by
  obtain ⟨heq, -, hio⟩ := insert_ctx_spec comp hs t e ctx hval hins
  exact ⟨heq, hio, updateColors_newColor ctx.length ctx Color.BLACK e (Nat.le_refl _)
    (insertDescend_sides comp e t.root [] ctx (by rfl) hins)⟩

/-- Witness for C2 (amended): inserting 2 to the right of the single BLACK
node 1. -/
theorem insert_placement_color_witness :
    insertToRBTree intComp (RBTree.mk (Tree.node Tree.nil Color.BLACK 1 Tree.nil) 1) 2 =
      (SUCCESS, RBTree.mk (updateColors [Frame.mk RIGHT Color.BLACK 1 Tree.nil]
        (Tree.node Tree.nil Color.BLACK 2 Tree.nil)) 2, []) ∧
    inorder (updateColors [Frame.mk RIGHT Color.BLACK 1 Tree.nil]
        (Tree.node Tree.nil Color.BLACK 2 Tree.nil)) =
      orderedInsert intComp 2
        (inorder (RBTree.mk (Tree.node Tree.nil Color.BLACK 1 Tree.nil) 1).root) ∧
    memColor (updateColors [Frame.mk RIGHT Color.BLACK 1 Tree.nil]
        (Tree.node Tree.nil Color.BLACK 2 Tree.nil)) 2
      (if ([Frame.mk RIGHT Color.BLACK 1 Tree.nil] : List Frame) = [] ∨
          zigzagCase [Frame.mk RIGHT Color.BLACK 1 Tree.nil] = true then Color.BLACK
        else Color.RED) = true :=
  insert_placement_color intComp intComp_strict
    (RBTree.mk (Tree.node Tree.nil Color.BLACK 1 Tree.nil) 1) 2
    [Frame.mk RIGHT Color.BLACK 1 Tree.nil] (by rfl) (by rfl)

theorem cmp_zero_symm (comp : Int → Int → Int) (hs : IsStrictCmp comp) (a b : Int) :
    comp a b = 0 ↔ comp b a = 0 := by
  have h1 := hs.flip a b
  have h2 := hs.flip b a
  omega

theorem orderedInsert_perm (comp : Int → Int → Int) (e : Int) :
    ∀ L : List Int, (orderedInsert comp e L).Perm (e :: L) := by
  intro L
  induction L with
  | nil => exact List.Perm.refl _
  | cons x xs ih =>
    by_cases h : comp e x < 0
    · rw [orderedInsert, if_pos h]
    · rw [orderedInsert, if_neg h]
      exact List.Perm.trans (List.Perm.cons x ih) (List.Perm.swap e x xs)

theorem findNodeCtx_isSome_of_mem (comp : Int → Int → Int) (hs : IsStrictCmp comp)
    (e : Int) : ∀ (t : Tree) (acc : List Frame), ordered comp t = true →
      (∃ y ∈ inorder t, comp e y = 0) → (findNodeCtx comp e t acc).isSome = true := by
  intro t
  induction t with
  | nil =>
    intro acc _ h
    obtain ⟨y, hy, -⟩ := h
    simp [inorder] at hy
  | node l c d r ihl ihr =>
    intro acc hord hex
    obtain ⟨y, hy, hcy⟩ := hex
    simp only [ordered, Bool.and_eq_true] at hord
    obtain ⟨⟨⟨hald, hard⟩, hordl⟩, hordr⟩ := hord
    simp only [findNodeCtx]
    split_ifs with h0 h1
    · rfl
    · refine ihl _ hordl ⟨y, ?_, hcy⟩
      simp only [inorder, List.mem_append, List.mem_cons] at hy
      rcases hy with hy | rfl | hy
      · exact hy
      · exact absurd hcy (by simpa [EQUAL] using h0)
      · exfalso
        have hyd : comp y d > 0 := by simpa using (allTree_iff_mem _ _).1 hard y hy
        have hdy : comp d y < 0 := (hs.flip d y).2 hyd
        have h1' : comp e d < 0 := by simpa [EQUAL] using h1
        have h3 : comp e y < 0 := hs.lt_trans e d y h1' hdy
        omega
    · refine ihr _ hordr ⟨y, ?_, hcy⟩
      simp only [inorder, List.mem_append, List.mem_cons] at hy
      rcases hy with hy | rfl | hy
      · exfalso
        have hyd : comp y d < 0 := by simpa using (allTree_iff_mem _ _).1 hald y hy
        have h1' : comp e d > 0 := by
          simp only [EQUAL] at h0 h1
          omega
        have hde : comp d e < 0 := (hs.flip d e).2 h1'
        have hye : comp y e < 0 := hs.lt_trans y d e hyd hde
        have h4 := (hs.flip y e).1 hye
        omega
      · exact absurd hcy (by simpa [EQUAL] using h0)
      · exact hy

theorem runOps_append (comp : Int → Int → Int) :
    ∀ (a b : List Op) (st : RBTree × List Int),
      runOps comp (a ++ b) st = runOps comp b (runOps comp a st) := by
  intro a
  induction a with
  | nil => intro b st; rfl
  | cons op rest ih =>
    intro b st
    cases op with
    | ins x => simp only [List.cons_append, runOps]; exact ih b _
    | del x => simp only [List.cons_append, runOps]; exact ih b _

theorem runOps_insert_phase (comp : Int → Int → Int) (hs : IsStrictCmp comp) :
    ∀ (xs : List Int) (t : RBTree) (tr : List Int),
      rbValid comp t.root = true →
      (inorder t.root ++ xs).Pairwise (fun a b => comp a b ≠ 0) →
      rbValid comp (runOps comp (xs.map Op.ins) (t, tr)).1.root = true ∧
      (runOps comp (xs.map Op.ins) (t, tr)).2 = tr ∧
      (inorder (runOps comp (xs.map Op.ins) (t, tr)).1.root).Perm
        (inorder t.root ++ xs) ∧
      (runOps comp (xs.map Op.ins) (t, tr)).1.size = t.size + xs.length := by
  have hsymm : Symmetric (fun a b : Int => comp a b ≠ 0) := by
    intro a b h h2
    exact h ((cmp_zero_symm comp hs b a).1 h2)
  intro xs
  induction xs with
  | nil =>
    intro t tr hval hpw
    exact ⟨hval, rfl, by simp [runOps], by simp [runOps]⟩
  | cons x xs ih =>
    intro t tr hval hpw
    have hfresh : ∀ y ∈ inorder t.root, comp x y ≠ 0 := by
      intro y hy h2
      rw [List.pairwise_append] at hpw
      exact (hpw.2.2 y hy x (List.mem_cons_self x xs)) ((cmp_zero_symm comp hs x y).1 h2)
    have hsome : (insertDescend comp x t.root []).isSome = true :=
      insertDescend_isSome_of_fresh comp x t.root [] hfresh
    obtain ⟨ctx, hctx⟩ := Option.isSome_iff_exists.1 hsome
    obtain ⟨heq, hv, hio⟩ := insert_ctx_spec comp hs t x ctx hval hctx
    have hperm1 : (inorder (updateColors ctx (Tree.node Tree.nil Color.BLACK x Tree.nil))
        ++ xs).Perm (inorder t.root ++ x :: xs) := by
      rw [hio]
      refine List.Perm.trans (List.Perm.append_right xs
        (orderedInsert_perm comp x (inorder t.root))) ?_
      exact List.perm_middle.symm
    have hpw' : (inorder (updateColors ctx (Tree.node Tree.nil Color.BLACK x Tree.nil))
        ++ xs).Pairwise (fun a b => comp a b ≠ 0) :=
      (hperm1.pairwise_iff fun hab => hsymm hab).2 hpw
    obtain ⟨ih1, ih2, ih3, ih4⟩ := ih (RBTree.mk (updateColors ctx (Tree.node Tree.nil
      Color.BLACK x Tree.nil)) (t.size + 1)) (tr ++ []) hv hpw'
    simp only [List.map_cons, runOps, heq]
    refine ⟨ih1, by simpa using ih2, ?_, ?_⟩
    · exact ih3.trans hperm1
    · rw [ih4, List.length_cons]
      show t.size + 1 + xs.length = t.size + (xs.length + 1)
      omega

theorem runOps_delete_phase (comp : Int → Int → Int) (hs : IsStrictCmp comp)
    (hrefl : ∀ a, comp a a = 0) :
    ∀ (ys : List Int) (t : RBTree) (tr : List Int),
      rbValid comp t.root = true →
      (inorder t.root).Pairwise (fun a b => comp a b ≠ 0) →
      ys.Perm (inorder t.root) →
      t.size = (inorder t.root).length →
      (runOps comp (ys.map Op.del) (t, tr)).1.root = Tree.nil ∧
      (runOps comp (ys.map Op.del) (t, tr)).1.size = 0 ∧
      ∃ zs, (runOps comp (ys.map Op.del) (t, tr)).2 = tr ++ zs ∧ zs.Perm ys := by
  intro ys
  induction ys with
  | nil =>
    intro t tr hval hpw hperm hsz
    have hnil : inorder t.root = [] := hperm.symm.eq_nil
    have hroot : t.root = Tree.nil := by
      cases ht : t.root with
      | nil => rfl
      | node l c d r =>
        rw [ht] at hnil
        simp [inorder] at hnil
    refine ⟨hroot, ?_, [], by simp [runOps], List.Perm.refl _⟩
    simp only [List.map_nil, runOps]
    rw [hsz, hnil]
    rfl
  | cons y ys ih =>
    intro t tr hval hpw hperm hsz
    have hymem : y ∈ inorder t.root := hperm.subset (List.mem_cons_self y ys)
    have hordT : ordered comp t.root = true := by
      simp only [rbValid, Bool.and_eq_true] at hval
      exact hval.2
    have hfound : (findNodeCtx comp y t.root []).isSome = true :=
      findNodeCtx_isSome_of_mem comp hs y t.root [] hordT ⟨y, hymem, hrefl y⟩
    obtain ⟨x, A, B, t', hcx, hioOld, heq, hv, hioNew⟩ :=
      delete_found_spec comp hs t y hval hfound
    have hx : x = y := by
      have hpw2 := hpw
      have hymem2 := hymem
      rw [hioOld] at hpw2 hymem2
      rcases List.mem_append.1 hymem2 with hyA | hyx
      · exfalso
        rw [List.pairwise_append] at hpw2
        exact (hpw2.2.2 y hyA x (List.mem_cons_self x B)) hcx
      · rcases List.mem_cons.1 hyx with rfl | hyB
        · rfl
        · exfalso
          rw [List.pairwise_append] at hpw2
          have h2 := hpw2.2.1
          rw [List.pairwise_cons] at h2
          exact (h2.1 y hyB) ((cmp_zero_symm comp hs y x).1 hcx)
    subst hx
    have hpw' : (inorder t').Pairwise (fun a b => comp a b ≠ 0) := by
      rw [hioNew]
      have hpw2 := hpw
      rw [hioOld, List.pairwise_append] at hpw2
      rw [List.pairwise_append]
      refine ⟨hpw2.1, (List.pairwise_cons.1 hpw2.2.1).2, ?_⟩
      intro a ha b hb
      exact hpw2.2.2 a ha b (List.mem_cons_of_mem x hb)
    have hperm' : ys.Perm (inorder t') := by
      rw [hioNew]
      have h3 : (x :: ys).Perm (x :: (A ++ B)) := by
        refine hperm.trans ?_
        rw [hioOld]
        exact List.perm_middle
      exact h3.cons_inv
    have hsz' : (RBTree.mk t' (t.size - 1)).size = (inorder t').length := by
      have hlen := hsz
      rw [hioOld] at hlen
      simp only [List.length_append, List.length_cons] at hlen
      show t.size - 1 = (inorder t').length
      rw [hioNew]
      simp only [List.length_append]
      omega
    obtain ⟨ih1, ih2, zs, ih3, ih4⟩ := ih (RBTree.mk t' (t.size - 1)) (tr ++ [x]) hv
      hpw' hperm' hsz'
    simp only [List.map_cons, runOps, heq]
    refine ⟨ih1, ih2, x :: zs, ?_, ih4.cons x⟩
    rw [ih3]
    simp

/-- Claim C8: inserting any list of pairwise comparator-distinct payloads into
an empty tree and then deleting all of them, in any order, leaves the tree
empty (size 0, NULL root) and calls the destructor exactly once per payload
(the destructor-call trace is a permutation of the payload list). -/
theorem insert_delete_roundtrip (comp : Int → Int → Int) (hs : IsStrictCmp comp)
    (hrefl : ∀ a, comp a a = 0) (xs ys : List Int)
    (hdist : xs.Pairwise (fun a b => comp a b ≠ 0)) (hperm : ys.Perm xs) :
    (runOps comp (xs.map Op.ins ++ ys.map Op.del) (newRBTree, [])).1.root = Tree.nil ∧
    (runOps comp (xs.map Op.ins ++ ys.map Op.del) (newRBTree, [])).1.size = 0 ∧
    (runOps comp (xs.map Op.ins ++ ys.map Op.del) (newRBTree, [])).2.Perm xs := by
  have hsymm : Symmetric (fun a b : Int => comp a b ≠ 0) := by
    intro a b h h2
    exact h ((cmp_zero_symm comp hs b a).1 h2)
  obtain ⟨hv1, htr1, hio1, hsz1⟩ := runOps_insert_phase comp hs xs newRBTree []
    (by rfl) (by simpa [newRBTree, inorder] using hdist)
  have hio1' : (inorder (runOps comp (xs.map Op.ins) (newRBTree, [])).1.root).Perm xs := by
    simpa [newRBTree, inorder] using hio1
  have hpw1 : (inorder (runOps comp (xs.map Op.ins) (newRBTree, [])).1.root).Pairwise
      (fun a b => comp a b ≠ 0) :=
    (hio1'.pairwise_iff fun hab => hsymm hab).2 hdist
  have hperm2 : ys.Perm (inorder (runOps comp (xs.map Op.ins) (newRBTree, [])).1.root) :=
    hperm.trans hio1'.symm
  have hsz2 : (runOps comp (xs.map Op.ins) (newRBTree, [])).1.size =
      (inorder (runOps comp (xs.map Op.ins) (newRBTree, [])).1.root).length := by
    rw [hsz1, hio1'.length_eq]
    simp [newRBTree]
  obtain ⟨hroot, hsz0, zs, htr, hzp⟩ := runOps_delete_phase comp hs hrefl ys
    (runOps comp (xs.map Op.ins) (newRBTree, [])).1
    (runOps comp (xs.map Op.ins) (newRBTree, [])).2 hv1 hpw1 hperm2 hsz2
  rw [runOps_append]
  refine ⟨hroot, hsz0, ?_⟩
  rw [htr, htr1]
  simpa using hzp.trans hperm

/-- Witness for C8: payloads `[1, 2]` inserted and then deleted in the
reversed order. -/
theorem insert_delete_roundtrip_witness :
    (runOps intComp ([1, 2].map Op.ins ++ [2, 1].map Op.del) (newRBTree, [])).1.root =
        Tree.nil ∧
      (runOps intComp ([1, 2].map Op.ins ++ [2, 1].map Op.del)
        (newRBTree, [])).1.size = 0 ∧
      (runOps intComp ([1, 2].map Op.ins ++ [2, 1].map Op.del) (newRBTree, [])).2.Perm
        [1, 2] :=
  insert_delete_roundtrip intComp intComp_strict (fun a => by simp [intComp]) [1, 2]
    [2, 1] (by decide) (by decide)

end RBT
